import Mathlib

set_option maxRecDepth 100000

/-
Verification of the Ingestion & Deduplication Engine of the ocr_chatbot_dms
repository against its natural-language specification.

The shallow embedding below translates the relevant code into Lean:
- the content fingerprint of process_single_document
  (src/Models/ocr_search_model_1.py, lines 639-647), including a full
  executable SHA-256 (the code calls hashlib.sha256) over Nat bytes;
- the AES-128-GCM stream layout of encrypt_stream / decrypt_stream
  (src/Models/encryption_utils.py, lines 35-78); the cipher internals live in
  the external cryptography library, so AES-128 and GCM are modelled from the
  spec (FIPS-197 and NIST SP 800-38D, which the spec cites as
  "AES-128 in GCM mode"); both are validated by known-answer theorems;
- the dedup state machine of process_single_document (lines 588-774), the
  failed-file log (lines 571-586), search_database (lines 790-851), the
  poller cycle (lines 166-215) and _get_new_entries_since_max_id
  (lines 134-164) of src/Models/ocr_search_model_1.py.

Machine integers are modelled as Nat with explicit reduction modulo 2^32
where the code (or the modelled cipher) works with 32-bit words; byte
streams are lists of Nat below 256.
-/

/- ===== basic list and byte helpers ===== -/

def flatMapL (f : α → List β) : List α → List β
  | [] => []
  | x :: xs => f x ++ flatMapL f xs

/-- Big-endian interpretation of a byte list as a Nat. -/
def bytesToNatBE (bs : List Nat) : Nat := bs.foldl (fun a b => a * 256 + b) 0

/-- Big-endian byte list of fixed width k for a Nat. -/
def natToBytesBE (k n : Nat) : List Nat :=
  (List.range k).map (fun i => n / 256 ^ (k - 1 - i) % 256)

/-- Reduction to a 32-bit word. -/
def w32 (n : Nat) : Nat := n % 4294967296

/- ===== SHA-256 (FIPS 180-4), as called by hashlib.sha256 in
   process_single_document, line 647 ===== -/

def rotr32 (n x : Nat) : Nat := w32 (x >>> n ||| x <<< (32 - n))

def shaCh (x y z : Nat) : Nat := (x &&& y) ^^^ ((x ^^^ 4294967295) &&& z)

def shaMaj (x y z : Nat) : Nat := (x &&& y) ^^^ (x &&& z) ^^^ (y &&& z)

def bigSigma0 (x : Nat) : Nat := rotr32 2 x ^^^ rotr32 13 x ^^^ rotr32 22 x

def bigSigma1 (x : Nat) : Nat := rotr32 6 x ^^^ rotr32 11 x ^^^ rotr32 25 x

def smallSigma0 (x : Nat) : Nat := rotr32 7 x ^^^ rotr32 18 x ^^^ (x >>> 3)

def smallSigma1 (x : Nat) : Nat := rotr32 17 x ^^^ rotr32 19 x ^^^ (x >>> 10)

/-- The 64 SHA-256 round constants (fractional parts of cube roots of the
first 64 primes, FIPS 180-4 section 4.2.2). -/
def shaK : List Nat :=
  [1116352408, 1899447441, 3049323471, 3921009573, 961987163, 1508970993,
   2453635748, 2870763221, 3624381080, 310598401, 607225278, 1426881987,
   1925078388, 2162078206, 2614888103, 3248222580, 3835390401, 4022224774,
   264347078, 604807628, 770255983, 1249150122, 1555081692, 1996064986,
   2554220882, 2821834349, 2952996808, 3210313671, 3336571891, 3584528711,
   113926993, 338241895, 666307205, 773529912, 1294757372, 1396182291,
   1695183700, 1986661051, 2177026350, 2456956037, 2730485921, 2820302411,
   3259730800, 3345764771, 3516065817, 3600352804, 4094571909, 275423344,
   430227734, 506948616, 659060556, 883997877, 958139571, 1322822218,
   1537002063, 1747873779, 1955562222, 2024104815, 2227730452, 2361852424,
   2428436474, 2756734187, 3204031479, 3329325298]

/-- The initial SHA-256 hash value (FIPS 180-4 section 5.3.3). -/
def shaH0 : List Nat :=
  [1779033703, 3144134277, 1013904242, 2773480762, 1359893119,
   2600822924, 528734635, 1541459225]

def bytesToWordBE (bs : List Nat) : Nat := bs.foldl (fun a b => a * 256 + b) 0

/-- SHA-256 message padding: append 0x80, zero bytes and the 64-bit
big-endian bit length, up to a multiple of 64 bytes. -/
def shaPad (msg : List Nat) : List Nat :=
  let L := msg.length
  let k := (119 - L % 64) % 64
  msg ++ [128] ++ List.replicate k 0 ++ natToBytesBE 8 (8 * L)

/-- Splits a list into chunks of size sz (fuel-driven, fuel at least the
list length). -/
def chunksExact (sz : Nat) : Nat → List Nat → List (List Nat)
  | 0, _ => []
  | _, [] => []
  | fuel + 1, l => l.take sz :: chunksExact sz fuel (l.drop sz)

def shaSchedule (block : List Nat) : List Nat :=
  let w0 := (List.range 16).map (fun i => bytesToWordBE ((block.drop (4 * i)).take 4))
  (List.range 48).foldl
    (fun ws _ =>
      let i := ws.length
      ws ++ [w32 (smallSigma1 (ws.getD (i - 2) 0) + ws.getD (i - 7) 0 +
                  smallSigma0 (ws.getD (i - 15) 0) + ws.getD (i - 16) 0)])
    w0

def shaCompress (H : List Nat) (block : List Nat) : List Nat :=
  let w := shaSchedule block
  let init := (H.getD 0 0, H.getD 1 0, H.getD 2 0, H.getD 3 0,
               H.getD 4 0, H.getD 5 0, H.getD 6 0, H.getD 7 0)
  let fin := (List.range 64).foldl
    (fun st t =>
      let (a, b, c, d, e, f, g, h) := st
      let T1 := w32 (h + bigSigma1 e + shaCh e f g + shaK.getD t 0 + w.getD t 0)
      let T2 := w32 (bigSigma0 a + shaMaj a b c)
      (w32 (T1 + T2), a, b, c, w32 (d + T1), e, f, g))
    init
  let (a, b, c, d, e, f, g, h) := fin
  [w32 (H.getD 0 0 + a), w32 (H.getD 1 0 + b), w32 (H.getD 2 0 + c), w32 (H.getD 3 0 + d),
   w32 (H.getD 4 0 + e), w32 (H.getD 5 0 + f), w32 (H.getD 6 0 + g), w32 (H.getD 7 0 + h)]

/-- SHA-256 digest of a byte list, as eight 32-bit words. -/
def sha256Words (msg : List Nat) : List Nat :=
  let padded := shaPad msg
  (chunksExact 64 padded.length padded).foldl shaCompress shaH0

def hexDigit (n : Nat) : Char := if n < 10 then Char.ofNat (48 + n) else Char.ofNat (87 + n)

def wordToHex (w : Nat) : List Char :=
  (List.range 8).map (fun i => hexDigit (w >>> (28 - 4 * i) &&& 15))

/-- Lowercase hex digest of a byte list, matching hashlib hexdigest. -/
def sha256Hex (msg : List Nat) : String := String.mk (flatMapL wordToHex (sha256Words msg))

/-- UTF-8 encoding of one code point (RFC 3629), matching str.encode in
Python; code points are Char.toNat. -/
def utf8EncodeChar (c : Char) : List Nat :=
  let n := c.toNat
  if n < 128 then [n]
  else if n < 2048 then [192 + n / 64, 128 + n % 64]
  else if n < 65536 then [224 + n / 4096, 128 + n / 64 % 64, 128 + n % 64]
  else [240 + n / 262144, 128 + n / 4096 % 64, 128 + n / 64 % 64, 128 + n % 64]

def utf8Bytes (s : String) : List Nat := flatMapL utf8EncodeChar s.toList

/- ===== Python text operations used by process_single_document ===== -/

/-- The whitespace characters recognized by str.split and str.strip,
modelled for the ASCII range (space, tab, newline, carriage return,
vertical tab, form feed). -/
def isPySpace (c : Char) : Bool :=
  c = ' ' || c = '\t' || c = '\n' || c = '\r' || c = Char.ofNat 11 || c = Char.ofNat 12

/-- Fuel-driven splitter on a separator predicate, dropping empty fields
(fuel at least the list length; structural recursion keeps it computable
by the kernel). -/
def splitOnPredF (sep : Char → Bool) : Nat → List Char → List (List Char)
  | 0, _ => []
  | _, [] => []
  | fuel + 1, c :: cs =>
    if sep c then splitOnPredF sep fuel cs
    else (c :: cs.takeWhile (fun x => !sep x)) ::
      splitOnPredF sep fuel (cs.dropWhile (fun x => !sep x))

def splitOnPred (sep : Char → Bool) (l : List Char) : List (List Char) :=
  splitOnPredF sep l.length l

/-- Python str.split with no separator: splits on runs of whitespace and
drops empty fields (source line 639 does text.split()). -/
def pySplit : List Char → List (List Char) := splitOnPred isPySpace

/-- " ".join on a list of words. -/
def joinWords : List (List Char) → List Char
  | [] => []
  | [w] => w
  | w :: ws => w ++ ' ' :: joinWords ws

/-- normalized_text of line 639: " ".join(text.split()). -/
def pyNormalize (s : String) : String := String.mk (joinWords (pySplit s.toList))

/-- Python str.strip on both ends. -/
def pyStrip (s : String) : String :=
  String.mk (((s.toList.dropWhile isPySpace).reverse.dropWhile isPySpace).reverse)

/-- text_is_empty of line 631: text is None or text.strip() is empty. -/
def textIsEmpty : Option String → Bool
  | none => true
  | some t => (pyStrip t).toList.isEmpty

/-- Collapses every whitespace run to a single space, keeping a leading or
trailing run as one space (helper for the wording of the spec, which says
normalize collapses whitespace runs to single spaces and trims). -/
def collapseWsF : Nat → List Char → List Char
  | 0, _ => []
  | _, [] => []
  | fuel + 1, c :: cs =>
    if isPySpace c then ' ' :: collapseWsF fuel (cs.dropWhile isPySpace)
    else c :: collapseWsF fuel cs

def collapseWs (l : List Char) : List Char := collapseWsF l.length l

def dropTrailing (l : List Char) : List Char := (l.reverse.dropWhile isPySpace).reverse

/-- The normalization in the words of the spec: collapse every whitespace
run to a single space, then trim both ends. -/
def specNormalize (s : String) : String :=
  String.mk (dropTrailing ((collapseWs s.toList).dropWhile isPySpace))

/- ===== content fingerprint (source lines 639-647) ===== -/

/-- content_fingerprint of lines 642-645: first 5000 characters of the
normalized text, a "|" separator, then the embedded code payload or the
empty string (Python: qr_data or ""). -/
def fingerprintPreimage (text : String) (qrData : Option String) : String :=
  String.mk ((pyNormalize text).toList.take 5000) ++ "|" ++ qrData.getD ""

/-- hash_value of line 647: hashlib.sha256(preimage.encode("utf-8")).hexdigest(). -/
def hashValue (text : String) (qrData : Option String) : String :=
  sha256Hex (utf8Bytes (fingerprintPreimage text qrData))

/- ===== AES-128 (FIPS-197), modelled from the spec: the cipher itself is
   provided by the external cryptography library, the spec fixes it to
   AES-128 in GCM mode ===== -/

def gfMulAux : Nat → Nat → Nat → Nat → Nat
  | 0, _, _, acc => acc
  | fuel + 1, a, b, acc =>
    let acc := if b % 2 = 1 then acc ^^^ a else acc
    let a := if a < 128 then 2 * a else (2 * a) % 256 ^^^ 27
    gfMulAux fuel a (b / 2) acc

/-- Multiplication in GF(2^8) with the AES reduction polynomial. -/
def gfMul (a b : Nat) : Nat := gfMulAux 8 a b 0

/-- The AES S-box (FIPS-197 figure 7). -/
def sboxTable : List Nat :=
  [99, 124, 119, 123, 242, 107, 111, 197, 48, 1, 103, 43, 254, 215, 171, 118,
   202, 130, 201, 125, 250, 89, 71, 240, 173, 212, 162, 175, 156, 164, 114, 192,
   183, 253, 147, 38, 54, 63, 247, 204, 52, 165, 229, 241, 113, 216, 49, 21,
   4, 199, 35, 195, 24, 150, 5, 154, 7, 18, 128, 226, 235, 39, 178, 117,
   9, 131, 44, 26, 27, 110, 90, 160, 82, 59, 214, 179, 41, 227, 47, 132,
   83, 209, 0, 237, 32, 252, 177, 91, 106, 203, 190, 57, 74, 76, 88, 207,
   208, 239, 170, 251, 67, 77, 51, 133, 69, 249, 2, 127, 80, 60, 159, 168,
   81, 163, 64, 143, 146, 157, 56, 245, 188, 182, 218, 33, 16, 255, 243, 210,
   205, 12, 19, 236, 95, 151, 68, 23, 196, 167, 126, 61, 100, 93, 25, 115,
   96, 129, 79, 220, 34, 42, 144, 136, 70, 238, 184, 20, 222, 94, 11, 219,
   224, 50, 58, 10, 73, 6, 36, 92, 194, 211, 172, 98, 145, 149, 228, 121,
   231, 200, 55, 109, 141, 213, 78, 169, 108, 86, 244, 234, 101, 122, 174, 8,
   186, 120, 37, 46, 28, 166, 180, 198, 232, 221, 116, 31, 75, 189, 139, 138,
   112, 62, 181, 102, 72, 3, 246, 14, 97, 53, 87, 185, 134, 193, 29, 158,
   225, 248, 152, 17, 105, 217, 142, 148, 155, 30, 135, 233, 206, 85, 40, 223,
   140, 161, 137, 13, 191, 230, 66, 104, 65, 153, 45, 15, 176, 84, 187, 22]

def sbox (b : Nat) : Nat := sboxTable.getD b 0

def subWord (w : Nat) : Nat :=
  sbox (w >>> 24 &&& 255) <<< 24 ||| sbox (w >>> 16 &&& 255) <<< 16 |||
  sbox (w >>> 8 &&& 255) <<< 8 ||| sbox (w &&& 255)

def rotWord (w : Nat) : Nat := w32 (w <<< 8 ||| w >>> 24)

def aesRcon : List Nat := [1, 2, 4, 8, 16, 32, 64, 128, 27, 54]

/-- AES-128 key expansion to 44 words. -/
def keyExpand (key : List Nat) : List Nat :=
  let w0 := (List.range 4).map (fun i => bytesToWordBE ((key.drop (4 * i)).take 4))
  (List.range 40).foldl
    (fun ws _ =>
      let i := ws.length
      let temp := ws.getD (i - 1) 0
      let temp :=
        if i % 4 = 0 then subWord (rotWord temp) ^^^ (aesRcon.getD (i / 4 - 1) 0 <<< 24)
        else temp
      ws ++ [ws.getD (i - 4) 0 ^^^ temp])
    w0

def addRoundKey (st : List Nat) (ws : List Nat) (round : Nat) : List Nat :=
  (List.range 16).map (fun i =>
    st.getD i 0 ^^^ (ws.getD (4 * round + i / 4) 0 >>> (24 - 8 * (i % 4)) &&& 255))

def subBytesL (st : List Nat) : List Nat := st.map sbox

def shiftRows (st : List Nat) : List Nat :=
  (List.range 16).map (fun i => st.getD (i % 4 + 4 * ((i / 4 + i % 4) % 4)) 0)

def mixOneColumn (s0 s1 s2 s3 : Nat) : List Nat :=
  [gfMul 2 s0 ^^^ gfMul 3 s1 ^^^ s2 ^^^ s3,
   s0 ^^^ gfMul 2 s1 ^^^ gfMul 3 s2 ^^^ s3,
   s0 ^^^ s1 ^^^ gfMul 2 s2 ^^^ gfMul 3 s3,
   gfMul 3 s0 ^^^ s1 ^^^ s2 ^^^ gfMul 2 s3]

def mixColumns (st : List Nat) : List Nat :=
  flatMapL (fun c => mixOneColumn (st.getD (4 * c) 0) (st.getD (4 * c + 1) 0)
                       (st.getD (4 * c + 2) 0) (st.getD (4 * c + 3) 0)) (List.range 4)

/-- AES-128 block encryption of 16 input bytes under a 16-byte key. -/
def aesEncryptBlock (key : List Nat) (input : List Nat) : List Nat :=
  let ws := keyExpand key
  let st := addRoundKey input ws 0
  let st := (List.range 9).foldl
    (fun st r => addRoundKey (mixColumns (shiftRows (subBytesL st))) ws (r + 1)) st
  addRoundKey (shiftRows (subBytesL st)) ws 10

/- ===== GCM mode (NIST SP 800-38D) and the stream layout of
   src/Models/encryption_utils.py ===== -/

/-- Multiplication in GF(2^128) with the GCM bit ordering
(SP 800-38D algorithm 1), blocks as 128-bit Nat. -/
def gmul128 (x y : Nat) : Nat :=
  let R := 0xe1 <<< 120
  ((List.range 128).foldl
    (fun zv i =>
      let z := if x >>> (127 - i) &&& 1 = 1 then zv.1 ^^^ zv.2 else zv.1
      let v := if zv.2 &&& 1 = 1 then (zv.2 >>> 1) ^^^ R else zv.2 >>> 1
      (z, v))
    (0, y)).1

def ghash (hsub : Nat) (blocks : List Nat) : Nat :=
  blocks.foldl (fun y b => gmul128 (y ^^^ b) hsub) 0

/-- Splits a byte list into 128-bit blocks, the last one zero-padded on the
right (fuel-driven, fuel at least the list length). -/
def bytesToBlocks : Nat → List Nat → List Nat
  | 0, _ => []
  | _, [] => []
  | fuel + 1, bs =>
    (bytesToNatBE (bs.take 16) <<< (8 * (16 - (bs.take 16).length))) :: bytesToBlocks fuel (bs.drop 16)

/-- The block cipher as a function on 128-bit Nat. -/
def ekN (key : List Nat) (n : Nat) : Nat := bytesToNatBE (aesEncryptBlock key (natToBytesBE 16 n))

/-- Counter addition: the low 32 bits are incremented modulo 2^32
(iterated inc32 of SP 800-38D). -/
def ctrAdd (icb i : Nat) : Nat := icb / 2 ^ 32 * 2 ^ 32 + (icb % 2 ^ 32 + i) % 2 ^ 32

/-- The CTR keystream from initial counter block icb covering len bytes. -/
def keystream (key : List Nat) (icb len : Nat) : List Nat :=
  flatMapL (fun i => natToBytesBE 16 (ekN key (ctrAdd icb i))) (List.range ((len + 15) / 16))

def xorBytes (a b : List Nat) : List Nat := a.zipWith Nat.xor b

/-- The pre-counter block for a 12-byte IV: IV followed by 0^31 1. -/
def gcmJ0 (iv : List Nat) : Nat := bytesToNatBE iv * 2 ^ 32 + 1

/-- GCTR on the plaintext, counter starting at inc32 of J0. -/
def gcmCiphertext (key iv msg : List Nat) : List Nat :=
  xorBytes msg (keystream key (ctrAdd (gcmJ0 iv) 1) msg.length)

/-- The 16-byte GCM authentication tag over the ciphertext (no associated
data is passed by the code). -/
def gcmTag (key iv ct : List Nat) : List Nat :=
  let hsub := ekN key 0
  let s := ghash hsub (bytesToBlocks ct.length ct ++ [8 * ct.length])
  natToBytesBE 16 (ekN key (gcmJ0 iv) ^^^ s)

/-- encrypt_stream (encryption_utils.py lines 35-56): writes the 12-byte IV,
then the ciphertext (streamed in chunks, which concatenate to the one-shot
GCTR output), then the 16-byte tag. The random IV is a parameter here. -/
def encryptStream (key iv msg : List Nat) : List Nat :=
  let ct := gcmCiphertext key iv msg
  iv ++ ct ++ gcmTag key iv ct

/-- The observable failure modes of decrypt_stream: ivMissing is the
IllegalStateException raised at line 62 when fewer than 12 bytes can be
read; tagTooShort is the ValueError raised by modes.GCM when the tag slice
has fewer than 16 bytes; authFailure is the InvalidTag raised by
finalize when the authentication check fails. -/
inductive DecryptFailure where
  | ivMissing
  | tagTooShort
  | authFailure
deriving DecidableEq, Repr

instance exceptDecEq [DecidableEq ε] [DecidableEq α] : DecidableEq (Except ε α) := fun x y =>
  match x, y with
  | .error a, .error b =>
    if h : a = b then isTrue (by rw [h]) else isFalse (by intro hh; cases hh; exact h rfl)
  | .error _, .ok _ => isFalse (by intro hh; cases hh)
  | .ok _, .error _ => isFalse (by intro hh; cases hh)
  | .ok a, .ok b =>
    if h : a = b then isTrue (by rw [h]) else isFalse (by intro hh; cases hh; exact h rfl)

/-- decrypt_stream (encryption_utils.py lines 59-78): reads the first 12
bytes as IV, takes the final 16 bytes of the remainder as tag (Python
slices rest[:-16] and rest[-16:]) and authenticates before returning the
plaintext. -/
def decryptStream (key input : List Nat) : Except DecryptFailure (List Nat) :=
  if input.length < 12 then .error .ivMissing
  else
    let iv := input.take 12
    let rest := input.drop 12
    let ct := rest.take (rest.length - 16)
    let tag := rest.drop (rest.length - 16)
    if tag.length ≠ 16 then .error .tagTooShort
    else if gcmTag key iv ct = tag then
      .ok (xorBytes ct (keystream key (ctrAdd (gcmJ0 iv) 1) ct.length))
    else .error .authFailure

/- ===== the dedup engine state
   (src/Models/ocr_search_model_1.py) ===== -/

/-- One row of the FTS virtual table document_data (lines 94-102):
mysql_original_id, file_name, content, qr_data, hash. The id is nullable,
which is the corrupted state repaired at lines 722-746. -/
structure IndexRow where
  originalId : Option Nat
  fileName : String
  content : String
  qrData : Option String
  hash : String
deriving DecidableEq, Repr

/-- The writable columns of one document_details row: is_duplicate and
document_id (the external store owns id and file_name). -/
structure DetailsRow where
  isDuplicate : Bool
  documentId : Option Nat
deriving DecidableEq, Repr

/-- The mutable state touched by process_single_document: the local FTS
index, the external document_details store keyed by canonical id, and the
contents of failed_files.json. -/
structure EngineState where
  index : List IndexRow
  details : Nat → DetailsRow
  failedLog : List String

/-- The per-document inputs of process_single_document: file name,
extension validity (line 597), the id resolved by get_id_from_db
(line 604), whether extraction raised (line 626), and the extraction
result (text, qr_data). -/
structure DocInput where
  fileName : String
  validExt : Bool
  docId : Option Nat
  extractError : Bool
  text : Option String
  qrData : Option String
deriving DecidableEq, Repr

/-- The minimum of two nullable ids under the SQLite ASC ordering, where
NULL sorts before every value. -/
def optMin : Option Nat → Option Nat → Option Nat
  | none, _ => none
  | _, none => none
  | some a, some b => some (min a b)

def selectMinOriginal (rs : List IndexRow) : Option (Option Nat) :=
  match rs.map (fun r => r.originalId) with
  | [] => none
  | v :: vs => some (vs.foldl optMin v)

/-- The query of lines 651-654: SELECT mysql_original_id FROM document_data
WHERE hash = ? ORDER BY mysql_original_id ASC LIMIT 1. Returns none when no
row matches, otherwise the least mysql_original_id (NULL first). -/
def lookupHash (idx : List IndexRow) (h : String) : Option (Option Nat) :=
  selectMinOriginal (idx.filter (fun r => r.hash == h))

/-- UPDATE document_details ... WHERE id = k, as a pointwise map update. -/
def updDetails (f : Nat → DetailsRow) (k : Nat) (v : DetailsRow) : Nat → DetailsRow :=
  fun n => if n = k then v else f n

/-- Sorted-insert with deduplication; folding it gives the contents of
sorted(set(...)) written by log_failed_file. -/
def insertSortedDedup (x : String) : List String → List String
  | [] => [x]
  | y :: ys =>
    if x = y then y :: ys
    else if x.toList < y.toList then x :: y :: ys
    else y :: insertSortedDedup x ys

def sortDedup (l : List String) : List String := l.foldr insertSortedDedup []

/-- log_failed_file (lines 571-586): reads failed_files.json as a set of
names; when the name is absent it is added and the sorted set is written
back, otherwise the file is left untouched. The persisted list is modelled
by its contents. -/
def logFailedFile (log : List String) (name : String) : List String :=
  if name ∈ log then log else sortDedup (name :: log)

/-- The outcomes named by the spec for processDocument. The code itself
returns None on every path; the constructor mirrors the branch taken
(the repair path of lines 722-746 marks the record original). -/
inductive ProcResult where
  | skipped
  | failed
  | originalInserted
  | markedDuplicate
  | markedOriginal
deriving DecidableEq, Repr

/-- Lines 639-771 of process_single_document: fingerprint the text, look
the hash up in the FTS table and branch.
- some foundId, docId < foundId (lines 663-703): rewrite every FTS row
  whose mysql_original_id equals foundId to docId, mark foundId duplicate
  of docId, mark docId original;
- some foundId, docId not below foundId (lines 704-720): mark docId
  duplicate of foundId, no index mutation;
- NULL original (lines 722-746): set mysql_original_id to docId on every
  row with this hash, mark docId original;
- no row (lines 748-771): insert a new FTS row and mark docId original. -/
def dedupAndStore (s : EngineState) (docId : Nat) (fileName text : String)
    (qrData : Option String) : EngineState × ProcResult :=
  match lookupHash s.index (hashValue text qrData) with
  | some (some foundId) =>
    if docId < foundId then
      ({ s with
         index := s.index.map (fun r =>
           if r.originalId == some foundId then { r with originalId := some docId } else r),
         details := updDetails (updDetails s.details foundId ⟨true, some docId⟩)
                      docId ⟨false, none⟩ },
       .markedOriginal)
    else
      ({ s with details := updDetails s.details docId ⟨true, some foundId⟩ },
       .markedDuplicate)
  | some none =>
    ({ s with
       index := s.index.map (fun r =>
         if r.hash == hashValue text qrData then { r with originalId := some docId } else r),
       details := updDetails s.details docId ⟨false, none⟩ },
     .markedOriginal)
  | none =>
    ({ s with
       index := s.index ++ [⟨some docId, fileName, text, qrData, hashValue text qrData⟩],
       details := updDetails s.details docId ⟨false, none⟩ },
     .originalInserted)

/-- process_single_document (lines 588-774): skip unsupported extensions,
skip when no document_details row resolves the file name, log and fail when
extraction raised or returned empty text, otherwise run the dedup logic. -/
def processSingleDocument (s : EngineState) (d : DocInput) : EngineState × ProcResult :=
  if d.validExt = false then (s, .skipped)
  else
    match d.docId with
    | none => (s, .skipped)
    | some docId =>
      if d.extractError then
        ({ s with failedLog := logFailedFile s.failedLog d.fileName }, .failed)
      else if textIsEmpty d.text then
        ({ s with failedLog := logFailedFile s.failedLog d.fileName }, .failed)
      else dedupAndStore s docId d.fileName (d.text.getD "") d.qrData

/-- Sequential processing of a list of documents. -/
def processAll (s : EngineState) (docs : List DocInput) : EngineState :=
  docs.foldl (fun st d => (processSingleDocument st d).1) s

/- ===== search_database (lines 790-851) ===== -/

/-- ASCII lowercasing, as applied by SQLite LIKE and the FTS tokenizer. -/
def lowerAscii (c : Char) : Char :=
  if 65 ≤ c.toNat && c.toNat ≤ 90 then Char.ofNat (c.toNat + 32) else c

def isAlnumAscii (c : Char) : Bool :=
  (48 ≤ c.toNat && c.toNat ≤ 57) || (65 ≤ c.toNat && c.toNat ≤ 90) ||
  (97 ≤ c.toNat && c.toNat ≤ 122)

/-- Decidable infix test on lists. -/
def isInfixL [BEq α] (needle : List α) : List α → Bool
  | [] => needle.isPrefixOf ([] : List α)
  | x :: xs => needle.isPrefixOf (x :: xs) || isInfixL needle xs

/-- Modelled from the spec: the FTS phrase query "..." built at line 796
matches rows whose tokenized content contains the tokens of the query
consecutively; tokens are maximal alphanumeric runs, case-folded (the
SQLite FTS5 unicode61 tokenizer, modelled for ASCII). The FTS engine is
external to the repository. -/
def phraseMatchModel (q content : String) : Bool :=
  isInfixL (splitOnPred (fun c => !isAlnumAscii c) (q.toList.map lowerAscii))
    (splitOnPred (fun c => !isAlnumAscii c) (content.toList.map lowerAscii))

/-- Modelled from the spec: content LIKE escaped as percent-query-percent at
line 797 is a case-insensitive substring test (SQLite LIKE, ASCII case
folding; wildcard characters inside the query are not modelled). -/
def likeMatchModel (q content : String) : Bool :=
  isInfixL (q.toList.map lowerAscii) (content.toList.map lowerAscii)

/-- SELECT DISTINCT: keep the first occurrence of each pair (fuel-driven,
fuel at least the list length). -/
def dedupPairsF : Nat → List (Option Nat × String) → List (Option Nat × String)
  | 0, _ => []
  | _, [] => []
  | fuel + 1, x :: xs => x :: dedupPairsF fuel (xs.filter (fun y => y != x))

def dedupPairs (l : List (Option Nat × String)) : List (Option Nat × String) :=
  dedupPairsF l.length l

/-- The IN clause on mysql_original_id, present only when selected_files is
truthy in Python (a non-empty list); a NULL id never satisfies IN. -/
def inIdFilter (sel : Option (List Nat)) (r : IndexRow) : Bool :=
  match sel with
  | some (x :: xs) =>
    match r.originalId with
    | some i => (x :: xs).contains i
    | none => false
  | _ => true

/-- One SELECT of search_database: rows whose content satisfies the
matcher, restricted by the id filter, projected to
(mysql_original_id, file_name) with DISTINCT. -/
def searchPass (matcher : String → String → Bool) (idx : List IndexRow)
    (q : String) (sel : Option (List Nat)) : List (Option Nat × String) :=
  dedupPairs ((idx.filter (fun r => matcher q r.content && inIdFilter sel r)).map
    (fun r => (r.originalId, r.fileName)))

/-- search_database (lines 790-851), parametric in the two SQL match
predicates (MATCH and LIKE are evaluated by SQLite): run the phrase pass;
if and only if it returns no rows, run the LIKE pass. -/
def searchDatabase (phraseOk likeOk : String → String → Bool) (idx : List IndexRow)
    (q : String) (sel : Option (List Nat)) : List (Option Nat × String) :=
  let rows := searchPass phraseOk idx q sel
  if rows.isEmpty then searchPass likeOk idx q sel else rows

/- ===== the poller (lines 134-215) ===== -/

/-- What the recursive disk search of lines 188-201 finds for a pending
file name: nothing, or a file whose processing inputs are these (the
processed path has exactly the searched file name). -/
structure FoundDoc where
  validExt : Bool
  docId : Option Nat
  extractError : Bool
  text : Option String
  qrData : Option String
deriving DecidableEq, Repr

def mkDocInput (n : String) (f : FoundDoc) : DocInput :=
  ⟨n, f.validExt, f.docId, f.extractError, f.text, f.qrData⟩

/-- One iteration of the scan of lines 183-206 over a pending entry
(file name, first seen time): when the file is found it is processed and
queued for removal; when it is missing and the elapsed time exceeds the
15 second bound it is queued for removal with only a printed message. -/
def pollScanStep (disk : String → Option FoundDoc) (now : Nat)
    (acc : EngineState × List String) (item : String × Nat) : EngineState × List String :=
  match disk item.1 with
  | some fd => ((processSingleDocument acc.1 (mkDocInput item.1 fd)).1, acc.2 ++ [item.1])
  | none => if now - item.2 > 15 then (acc.1, acc.2 ++ [item.1]) else acc

/-- The pending scan and removal of lines 181-210: fold the scan over the
pending list, then delete every queued name from pending. -/
def pollScan (s : EngineState) (pending : List (String × Nat))
    (disk : String → Option FoundDoc) (now : Nat) : EngineState × List (String × Nat) :=
  ((pending.foldl (pollScanStep disk now) (s, [])).1,
   pending.filter (fun it => !(pending.foldl (pollScanStep disk now) (s, [])).2.contains it.1))

/-- One full poll cycle (lines 171-212): enqueue every new entry not
already pending with the current time, then scan. -/
def pollCycle (s : EngineState) (pending : List (String × Nat))
    (newEntries : List (Nat × String)) (disk : String → Option FoundDoc)
    (now : Nat) : EngineState × List (String × Nat) :=
  let pending := newEntries.foldl
    (fun p e => if p.any (fun it => it.1 == e.2) then p else p ++ [(e.2, now)]) pending
  pollScan s pending disk now

/-- execute_sql_query (sql_connection/connection.py lines 60-71): on any
exception the error is logged and an empty DataFrame is returned; the
query outcome is modelled as none on failure. -/
def executeSqlQueryM (result : Option (List α)) : List α := result.getD []

/-- _get_new_entries_since_max_id (lines 134-164): run the id query; when
rows come back, advance max_id to the id of the last row (the query orders
ascending) and return the rows; otherwise return no rows and keep max_id.
The outer try teams with the empty-DataFrame behavior of
execute_sql_query so that a failed query yields no rows. -/
def getNewEntriesSinceMaxId (maxId : Nat) (queryResult : Option (List (Nat × String))) :
    List (Nat × String) × Nat :=
  match executeSqlQueryM queryResult with
  | [] => ([], maxId)
  | e :: es => (e :: es, (e :: es).foldl (fun _ x => x.1) 0)

/- ===== derived definitions used by the statements ===== -/

/-- The content fingerprint of a document input, as computed at lines
639-647 from its extracted text and embedded code payload. -/
def hashOfDoc (d : DocInput) : String := hashValue (d.text.getD "") d.qrData

/-- The canonical id of a document input whose id lookup succeeded. -/
def idOf (d : DocInput) : Nat := d.docId.getD 0

/-- The canonical ids of the processed documents sharing a given content
hash. -/
def classIds (docs : List DocInput) (h : String) : List Nat :=
  (docs.filter (fun d => hashOfDoc d == h)).map idOf

/-- The minimum of a list of ids, none when empty. -/
def minNat? : List Nat → Option Nat
  | [] => none
  | x :: xs =>
    some (match minNat? xs with
          | none => x
          | some m => min x m)

/-- The Search Index invariant of the spec: at most one Index Entry per
distinct content hash, every entry points at the lowest canonical id among
the processed documents sharing its hash, entries are never NULL, and
every processed document has an entry for its hash. -/
def IndexInv (P : List DocInput) (idx : List IndexRow) : Prop :=
  (∀ h, (idx.filter (fun r => r.hash == h)).length ≤ 1) ∧
  (∀ r ∈ idx, r.originalId = minNat? (classIds P r.hash) ∧ r.originalId ≠ none) ∧
  (∀ d ∈ P, ∃ r ∈ idx, r.hash = hashOfDoc d)

/- *** end of definitions; the development below settles the claims *** -/

/- ===== helper lemmas about the model ===== -/

theorem lengthLeOneCases (l : List α) (h : l.length ≤ 1) : l = [] ∨ ∃ a, l = [a] := by
  match l with
  | [] => exact Or.inl rfl
  | [a] => exact Or.inr ⟨a, rfl⟩
  | a :: b :: t => simp at h

theorem processSingleDocument_good (s : EngineState) (d : DocInput) (i : Nat)
    (hv : d.validExt = true) (hid : d.docId = some i) (he : d.extractError = false)
    (ht : textIsEmpty d.text = false) :
    processSingleDocument s d = dedupAndStore s i d.fileName (d.text.getD "") d.qrData := by
  simp [processSingleDocument, hv, hid, he, ht]

theorem dedupAndStore_insert (s : EngineState) (i : Nat) (fn tx : String) (qd : Option String)
    (hnone : lookupHash s.index (hashValue tx qd) = none) :
    dedupAndStore s i fn tx qd =
      ({ s with
         index := s.index ++ [⟨some i, fn, tx, qd, hashValue tx qd⟩],
         details := updDetails s.details i ⟨false, none⟩ }, .originalInserted) := by
  unfold dedupAndStore
  rw [hnone]

theorem dedupAndStore_duplicate (s : EngineState) (i f : Nat) (fn tx : String) (qd : Option String)
    (hfound : lookupHash s.index (hashValue tx qd) = some (some f)) (hle : ¬ i < f) :
    dedupAndStore s i fn tx qd =
      ({ s with details := updDetails s.details i ⟨true, some f⟩ }, .markedDuplicate) := by
  unfold dedupAndStore
  rw [hfound]
  simp [hle]

theorem dedupAndStore_repoint (s : EngineState) (i f : Nat) (fn tx : String) (qd : Option String)
    (hfound : lookupHash s.index (hashValue tx qd) = some (some f)) (hlt : i < f) :
    dedupAndStore s i fn tx qd =
      ({ s with
         index := s.index.map (fun r =>
           if r.originalId == some f then { r with originalId := some i } else r),
         details := updDetails (updDetails s.details f ⟨true, some i⟩) i ⟨false, none⟩ },
       .markedOriginal) := by
  unfold dedupAndStore
  rw [hfound]
  simp [hlt]

theorem dedupAndStore_repair (s : EngineState) (i : Nat) (fn tx : String) (qd : Option String)
    (hnull : lookupHash s.index (hashValue tx qd) = some none) :
    dedupAndStore s i fn tx qd =
      ({ s with
         index := s.index.map (fun r =>
           if r.hash == hashValue tx qd then { r with originalId := some i } else r),
         details := updDetails s.details i ⟨false, none⟩ },
       .markedOriginal) := by
  unfold dedupAndStore
  rw [hnull]

theorem updDetails_same (f : Nat → DetailsRow) (k : Nat) (v : DetailsRow) :
    updDetails f k v k = v := by
  simp [updDetails]

theorem updDetails_other (f : Nat → DetailsRow) (k : Nat) (v : DetailsRow) (j : Nat)
    (hj : j ≠ k) : updDetails f k v j = f j := by
  simp [updDetails, hj]

theorem lookupHash_of_filter_nil (idx : List IndexRow) (h : String)
    (hfil : idx.filter (fun r => r.hash == h) = []) : lookupHash idx h = none := by
  simp [lookupHash, hfil, selectMinOriginal]

theorem lookupHash_of_filter_singleton (idx : List IndexRow) (h : String) (r : IndexRow)
    (hfil : idx.filter (fun r => r.hash == h) = [r]) :
    lookupHash idx h = some r.originalId := by
  simp [lookupHash, hfil, selectMinOriginal]

theorem filter_hash_nil_of_free (idx : List IndexRow) (h : String)
    (hfree : ∀ r ∈ idx, r.hash ≠ h) : idx.filter (fun r => r.hash == h) = [] := by
  rw [List.filter_eq_nil_iff]
  intro r hr
  simp [hfree r hr]

/- ===== C10 ===== -/

/-- C10: when the poller query for new canonical records fails (the store
is unavailable), _get_new_entries_since_max_id returns an empty list and
leaves maxSeenId unchanged; more generally maxSeenId advances only when
rows are actually returned, so the missed rows are re-queried on the next
cycle. -/
theorem pollerQueryFailureKeepsMaxId (maxId : Nat)
    (queryResult : Option (List (Nat × String))) :
    getNewEntriesSinceMaxId maxId none = ([], maxId) ∧
    ((getNewEntriesSinceMaxId maxId queryResult).1 = [] →
      (getNewEntriesSinceMaxId maxId queryResult).2 = maxId) := by
  constructor
  · rfl
  · intro hempty
    unfold getNewEntriesSinceMaxId at hempty ⊢
    cases hq : executeSqlQueryM queryResult with
    | nil => simp
    | cons e es =>
      rw [hq] at hempty
      simp at hempty

theorem pollerQueryFailureKeepsMaxIdWitness :
    (getNewEntriesSinceMaxId 7 (some [])).1 = [] ∧
    (getNewEntriesSinceMaxId 7 (some [])).2 = 7 :=
  ⟨by decide, (pollerQueryFailureKeepsMaxId 7 (some [])).2 (by decide)⟩

/- ===== C9 ===== -/

/-- C9: when the fingerprint of a processed document matches an Index
Entry whose original_id foundId satisfies foundId ≤ id, the record id is
marked duplicate of foundId in the canonical store, every Search Index row
is left unchanged, records of other ids are untouched and nothing is
logged as failed. -/
theorem duplicateBranchFramesIndex (s : EngineState) (d : DocInput) (i f : Nat)
    (hv : d.validExt = true) (hid : d.docId = some i) (he : d.extractError = false)
    (ht : textIsEmpty d.text = false)
    (hfound : lookupHash s.index (hashOfDoc d) = some (some f))
    (hle : f ≤ i) :
    (processSingleDocument s d).1.index = s.index ∧
    (processSingleDocument s d).2 = ProcResult.markedDuplicate ∧
    (processSingleDocument s d).1.details i = ⟨true, some f⟩ ∧
    (∀ j, j ≠ i → (processSingleDocument s d).1.details j = s.details j) ∧
    (processSingleDocument s d).1.failedLog = s.failedLog := by
  have hred : processSingleDocument s d =
      ({ s with details := updDetails s.details i ⟨true, some f⟩ }, .markedDuplicate) := by
    rw [processSingleDocument_good s d i hv hid he ht]
    exact dedupAndStore_duplicate s i f d.fileName (d.text.getD "") d.qrData hfound
      (Nat.not_lt.mpr hle)
  rw [hred]
  exact ⟨rfl, rfl, updDetails_same _ _ _, fun j hj => updDetails_other _ _ _ j hj, rfl⟩

theorem duplicateBranchFramesIndexWitness :
    (textIsEmpty (some "dup content") = false ∧
      lookupHash [⟨some 4, "orig.txt", "dup content", none, hashValue "dup content" none⟩]
        (hashOfDoc ⟨"copy.txt", true, some 9, false, some "dup content", none⟩) = some (some 4)) ∧
    ((processSingleDocument
        ⟨[⟨some 4, "orig.txt", "dup content", none, hashValue "dup content" none⟩],
          fun _ => ⟨false, none⟩, []⟩
        ⟨"copy.txt", true, some 9, false, some "dup content", none⟩).1.index =
      [⟨some 4, "orig.txt", "dup content", none, hashValue "dup content" none⟩] ∧
     (processSingleDocument
        ⟨[⟨some 4, "orig.txt", "dup content", none, hashValue "dup content" none⟩],
          fun _ => ⟨false, none⟩, []⟩
        ⟨"copy.txt", true, some 9, false, some "dup content", none⟩).2 =
      ProcResult.markedDuplicate ∧
     (processSingleDocument
        ⟨[⟨some 4, "orig.txt", "dup content", none, hashValue "dup content" none⟩],
          fun _ => ⟨false, none⟩, []⟩
        ⟨"copy.txt", true, some 9, false, some "dup content", none⟩).1.details 9 =
      ⟨true, some 4⟩) := by
  have h := duplicateBranchFramesIndex
    ⟨[⟨some 4, "orig.txt", "dup content", none, hashValue "dup content" none⟩],
      fun _ => ⟨false, none⟩, []⟩
    ⟨"copy.txt", true, some 9, false, some "dup content", none⟩ 9 4
    rfl rfl rfl (by decide) (by decide) (by decide)
  exact ⟨⟨by decide, by decide⟩, h.1, h.2.1, h.2.2.1⟩

/- ===== C6 ===== -/

/-- C6: when the fingerprint of a processed document matches an Index
Entry whose original_id is NULL, the entry is repaired in place (its
original_id becomes the current canonical id, every other row is
unchanged, positions and length are preserved), the record is marked
original, and the call returns normally (the markedOriginal outcome, no
error is surfaced and nothing is logged as failed). -/
theorem corruptedEntrySelfHealing (s : EngineState) (d : DocInput) (i : Nat)
    (hv : d.validExt = true) (hid : d.docId = some i) (he : d.extractError = false)
    (ht : textIsEmpty d.text = false)
    (hnull : lookupHash s.index (hashOfDoc d) = some none) :
    (processSingleDocument s d).2 = ProcResult.markedOriginal ∧
    (processSingleDocument s d).1.index.length = s.index.length ∧
    (∀ j (hj : j < s.index.length) (hj2 : j < (processSingleDocument s d).1.index.length),
      (if (s.index.get ⟨j, hj⟩).hash = hashOfDoc d
       then (processSingleDocument s d).1.index.get ⟨j, hj2⟩ =
         { s.index.get ⟨j, hj⟩ with originalId := some i }
       else (processSingleDocument s d).1.index.get ⟨j, hj2⟩ = s.index.get ⟨j, hj⟩)) ∧
    (processSingleDocument s d).1.details i = ⟨false, none⟩ ∧
    (∀ j, j ≠ i → (processSingleDocument s d).1.details j = s.details j) ∧
    (processSingleDocument s d).1.failedLog = s.failedLog := by
  have hred : processSingleDocument s d =
      ({ s with
         index := s.index.map (fun r =>
           if r.hash == hashOfDoc d then { r with originalId := some i } else r),
         details := updDetails s.details i ⟨false, none⟩ },
       .markedOriginal) := by
    rw [processSingleDocument_good s d i hv hid he ht]
    exact dedupAndStore_repair s i d.fileName (d.text.getD "") d.qrData hnull
  rw [hred]
  refine ⟨rfl, by simp, ?_, updDetails_same _ _ _,
    fun j hj => updDetails_other _ _ _ j hj, rfl⟩
  intro j hj hj2
  simp only [List.get_eq_getElem, List.getElem_map]
  by_cases hh : s.index[j].hash = hashOfDoc d
  · rw [if_pos hh, if_pos (beq_iff_eq.mpr hh)]
  · rw [if_neg hh, if_neg (by simp [hh])]

theorem corruptedEntrySelfHealingWitness :
    (textIsEmpty (some "healed text") = false ∧
      lookupHash [⟨none, "old.txt", "healed text", none, hashValue "healed text" none⟩]
        (hashOfDoc ⟨"new.txt", true, some 6, false, some "healed text", none⟩) = some none) ∧
    ((processSingleDocument
        ⟨[⟨none, "old.txt", "healed text", none, hashValue "healed text" none⟩],
          fun _ => ⟨false, none⟩, []⟩
        ⟨"new.txt", true, some 6, false, some "healed text", none⟩).2 =
      ProcResult.markedOriginal ∧
     (processSingleDocument
        ⟨[⟨none, "old.txt", "healed text", none, hashValue "healed text" none⟩],
          fun _ => ⟨false, none⟩, []⟩
        ⟨"new.txt", true, some 6, false, some "healed text", none⟩).1.details 6 =
      ⟨false, none⟩) := by
  have h := corruptedEntrySelfHealing
    ⟨[⟨none, "old.txt", "healed text", none, hashValue "healed text" none⟩],
      fun _ => ⟨false, none⟩, []⟩
    ⟨"new.txt", true, some 6, false, some "healed text", none⟩ 6
    rfl rfl rfl (by decide) (by decide)
  exact ⟨⟨by decide, by decide⟩, h.1, h.2.2.2.1⟩

/- ===== C8 ===== -/

theorem mem_insertSortedDedup (a x : String) (l : List String) :
    a ∈ insertSortedDedup x l ↔ a = x ∨ a ∈ l := by
  induction l with
  | nil => simp [insertSortedDedup]
  | cons y ys ih =>
    unfold insertSortedDedup
    by_cases h1 : x = y
    · rw [if_pos h1]
      subst h1
      constructor
      · exact fun h => Or.inr h
      · rintro (rfl | h)
        · exact List.mem_cons_self _ _
        · exact h
    · rw [if_neg h1]
      by_cases h2 : x.toList < y.toList
      · rw [if_pos h2]
        constructor
        · intro h
          rcases List.mem_cons.mp h with rfl | h
          · exact Or.inl rfl
          · exact Or.inr h
        · rintro (rfl | h)
          · exact List.mem_cons_self _ _
          · exact List.mem_cons_of_mem _ h
      · rw [if_neg h2]
        constructor
        · intro h
          rcases List.mem_cons.mp h with rfl | h
          · exact Or.inr (List.mem_cons_self _ _)
          · rcases ih.mp h with rfl | h
            · exact Or.inl rfl
            · exact Or.inr (List.mem_cons_of_mem _ h)
        · rintro (rfl | h)
          · exact List.mem_cons_of_mem _ (ih.mpr (Or.inl rfl))
          · rcases List.mem_cons.mp h with rfl | h
            · exact List.mem_cons_self _ _
            · exact List.mem_cons_of_mem _ (ih.mpr (Or.inr h))

theorem mem_sortDedup (a : String) (l : List String) : a ∈ sortDedup l ↔ a ∈ l := by
  induction l with
  | nil => simp [sortDedup]
  | cons x xs ih =>
    show a ∈ insertSortedDedup x (sortDedup xs) ↔ _
    rw [mem_insertSortedDedup]
    simp [List.mem_cons, ih]

theorem chain_insertSortedDedup (x : String) (l : List String)
    (hl : List.Chain' (fun p q => p < q) l) :
    List.Chain' (fun p q => p < q) (insertSortedDedup x l) ∧
    (∀ z, (insertSortedDedup x l).head? = some z → z = x ∨ l.head? = some z) := by
  induction l with
  | nil =>
    refine ⟨List.chain'_singleton x, fun z hz => Or.inl ?_⟩
    have : some x = some z := by simpa [insertSortedDedup] using hz
    exact (Option.some.injEq _ _ ▸ this).symm
  | cons y ys ih =>
    have hys : List.Chain' (fun p q => p < q) ys := hl.tail
    unfold insertSortedDedup
    by_cases h1 : x = y
    · rw [if_pos h1]
      exact ⟨hl, fun z hz => Or.inr hz⟩
    · rw [if_neg h1]
      by_cases h2 : x.toList < y.toList
      · rw [if_pos h2]
        refine ⟨List.chain'_cons.mpr ⟨String.lt_iff_toList_lt.mpr h2, hl⟩, fun z hz => Or.inl ?_⟩
        have : some x = some z := by simpa using hz
        exact (Option.some.injEq _ _ ▸ this).symm
      · rw [if_neg h2]
        have hyx : y < x := by
          rcases lt_trichotomy x y with h | h | h
          · exact absurd (String.lt_iff_toList_lt.mp h) h2
          · exact absurd h h1
          · exact h
        obtain ⟨ihc, ihh⟩ := ih hys
        constructor
        · cases hins : insertSortedDedup x ys with
          | nil => exact List.chain'_singleton y
          | cons z zs =>
            rw [List.chain'_cons]
            refine ⟨?_, hins ▸ ihc⟩
            rcases ihh z (by rw [hins]; rfl) with hz | hz
            · exact hz ▸ hyx
            · exact (List.chain'_cons'.mp hl).1 z hz
        · intro z hz
          simp only [List.head?_cons, Option.some.injEq] at hz
          exact Or.inr (by simp [hz])

theorem chain_sortDedup (l : List String) :
    List.Chain' (fun p q => p < q) (sortDedup l) := by
  induction l with
  | nil => simp [sortDedup]
  | cons x xs ih => exact (chain_insertSortedDedup x (sortDedup xs) ih).1

/-- C8: when text extraction yields empty or absent text,
process_single_document returns the failed outcome, logs the file name to
the Failed File Log and touches neither the Search Index nor the canonical
store; the log keeps exactly its members plus the new name, logging an
already-present name leaves the log unchanged, and the maintained log is
sorted and deduplicated (strictly increasing whenever the existing log
was). -/
theorem emptyTextFailsAndLogs (s : EngineState) (d : DocInput) (i : Nat)
    (hv : d.validExt = true) (hid : d.docId = some i)
    (ht : textIsEmpty d.text = true) :
    (processSingleDocument s d).2 = ProcResult.failed ∧
    (processSingleDocument s d).1.index = s.index ∧
    (processSingleDocument s d).1.details = s.details ∧
    (processSingleDocument s d).1.failedLog = logFailedFile s.failedLog d.fileName ∧
    d.fileName ∈ logFailedFile s.failedLog d.fileName ∧
    (∀ a, a ∈ logFailedFile s.failedLog d.fileName ↔ a = d.fileName ∨ a ∈ s.failedLog) ∧
    (d.fileName ∈ s.failedLog → logFailedFile s.failedLog d.fileName = s.failedLog) ∧
    (List.Chain' (fun p q => p < q) s.failedLog →
      List.Chain' (fun p q => p < q) (logFailedFile s.failedLog d.fileName)) := by
  have hmem : ∀ a, a ∈ logFailedFile s.failedLog d.fileName ↔
      a = d.fileName ∨ a ∈ s.failedLog := by
    intro a
    unfold logFailedFile
    by_cases hin : d.fileName ∈ s.failedLog
    · rw [if_pos hin]
      constructor
      · exact fun h => Or.inr h
      · rintro (rfl | h)
        · exact hin
        · exact h
    · rw [if_neg hin, mem_sortDedup]
      exact List.mem_cons
  have hred : processSingleDocument s d =
      ({ s with failedLog := logFailedFile s.failedLog d.fileName }, .failed) := by
    unfold processSingleDocument
    rw [hv, hid]
    cases hext : d.extractError with
    | true => simp
    | false => simp [ht]
  rw [hred]
  refine ⟨rfl, rfl, rfl, rfl, (hmem d.fileName).mpr (Or.inl rfl), hmem, ?_, ?_⟩
  · intro hin
    unfold logFailedFile
    rw [if_pos hin]
  · intro hchain
    unfold logFailedFile
    by_cases hin : d.fileName ∈ s.failedLog
    · rw [if_pos hin]
      exact hchain
    · rw [if_neg hin]
      exact chain_sortDedup _

theorem emptyTextFailsAndLogsWitness :
    (textIsEmpty (some "  ") = true ∧
     (processSingleDocument ⟨[], fun _ => ⟨false, none⟩, ["b.txt", "z.txt"]⟩
        ⟨"m.txt", true, some 2, false, some "  ", none⟩).2 = ProcResult.failed ∧
     (processSingleDocument ⟨[], fun _ => ⟨false, none⟩, ["b.txt", "z.txt"]⟩
        ⟨"m.txt", true, some 2, false, some "  ", none⟩).1.failedLog =
       logFailedFile ["b.txt", "z.txt"] "m.txt") ∧
    logFailedFile ["b.txt", "z.txt"] "m.txt" = ["b.txt", "m.txt", "z.txt"] ∧
    logFailedFile ["b.txt", "m.txt", "z.txt"] "m.txt" = ["b.txt", "m.txt", "z.txt"] := by
  have h := emptyTextFailsAndLogs ⟨[], fun _ => ⟨false, none⟩, ["b.txt", "z.txt"]⟩
    ⟨"m.txt", true, some 2, false, some "  ", none⟩ 2 rfl rfl (by decide)
  exact ⟨⟨by decide, h.1, h.2.2.2.1⟩, by decide, by decide⟩

/- ===== C7 ===== -/

theorem dedupAndStore_failedLog (s : EngineState) (i : Nat) (fn tx : String)
    (qd : Option String) : (dedupAndStore s i fn tx qd).1.failedLog = s.failedLog := by
  unfold dedupAndStore
  cases lookupHash s.index (hashValue tx qd) with
  | none => rfl
  | some v =>
    cases v with
    | none => rfl
    | some f =>
      by_cases hlt : i < f
      · simp [hlt]
      · simp [hlt]

theorem processSingleDocument_failedLog (s : EngineState) (d : DocInput) :
    (processSingleDocument s d).1.failedLog = s.failedLog ∨
    (processSingleDocument s d).1.failedLog = logFailedFile s.failedLog d.fileName := by
  unfold processSingleDocument
  by_cases hv : d.validExt = false
  · rw [if_pos hv]
    exact Or.inl rfl
  · rw [if_neg hv]
    cases d.docId with
    | none => exact Or.inl rfl
    | some i =>
      by_cases he : d.extractError
      · simp [he]
      · by_cases ht : textIsEmpty d.text
        · simp [he, ht]
        · simp only [he, ht, Bool.false_eq_true, if_false]
          exact Or.inl (dedupAndStore_failedLog s i d.fileName (d.text.getD "") d.qrData)

theorem mem_logFailedFile_other (log : List String) (n a : String) (hne : a ≠ n) :
    a ∈ logFailedFile log n ↔ a ∈ log := by
  unfold logFailedFile
  by_cases hin : n ∈ log
  · rw [if_pos hin]
  · rw [if_neg hin, mem_sortDedup, List.mem_cons]
    constructor
    · rintro (rfl | h)
      · exact absurd rfl hne
      · exact h
    · exact fun h => Or.inr h

theorem pollScanStep_failedLog_mem (disk : String → Option FoundDoc) (now : Nat)
    (acc : EngineState × List String) (it : String × Nat) (name : String)
    (hname : it.1 = name → disk it.1 = none) :
    name ∈ (pollScanStep disk now acc it).1.failedLog ↔ name ∈ acc.1.failedLog := by
  unfold pollScanStep
  cases hd : disk it.1 with
  | none => by_cases h : now - it.2 > 15 <;> simp [h]
  | some fd =>
    have hne : name ≠ it.1 := by
      intro h
      rw [hname h.symm] at hd
      cases hd
    rcases processSingleDocument_failedLog acc.1 (mkDocInput it.1 fd) with h | h
    · simp only [h]
    · simp only [h]
      exact mem_logFailedFile_other acc.1.failedLog it.1 name hne

theorem pollScanFold_failedLog (disk : String → Option FoundDoc) (now : Nat)
    (items : List (String × Nat)) (name : String) (hname : disk name = none) :
    ∀ acc : EngineState × List String,
      (name ∈ (items.foldl (pollScanStep disk now) acc).1.failedLog ↔
        name ∈ acc.1.failedLog) := by
  induction items with
  | nil => exact fun acc => Iff.rfl
  | cons it its ih =>
    intro acc
    rw [List.foldl_cons, ih (pollScanStep disk now acc it)]
    exact pollScanStep_failedLog_mem disk now acc it name (fun h => h ▸ hname)

theorem pollScanFold_removes_mono (disk : String → Option FoundDoc) (now : Nat)
    (items : List (String × Nat)) :
    ∀ (acc : EngineState × List String) (a : String),
      a ∈ acc.2 → a ∈ (items.foldl (pollScanStep disk now) acc).2 := by
  induction items with
  | nil => exact fun acc a h => h
  | cons it its ih =>
    intro acc a h
    rw [List.foldl_cons]
    apply ih
    unfold pollScanStep
    cases disk it.1 with
    | none =>
      by_cases hc : now - it.2 > 15
      · simp [hc, List.mem_append]
        exact Or.inl h
      · simpa [hc] using h
    | some fd =>
      simp [List.mem_append]
      exact Or.inl h

theorem pollScanFold_removes_mem (disk : String → Option FoundDoc) (now : Nat)
    (items : List (String × Nat)) (name : String) (t0 : Nat)
    (hmem : (name, t0) ∈ items) (hdisk : disk name = none) (hto : now - t0 > 15) :
    ∀ acc : EngineState × List String,
      name ∈ (items.foldl (pollScanStep disk now) acc).2 := by
  induction items with
  | nil => cases hmem
  | cons it its ih =>
    intro acc
    rw [List.foldl_cons]
    rcases List.mem_cons.mp hmem with heq | hmem2
    · apply pollScanFold_removes_mono
      rw [← heq]
      unfold pollScanStep
      simp only [← heq] at hdisk ⊢
      rw [hdisk]
      simp [hto, List.mem_append]
    · exact ih hmem2 _

/-- C7 amended: a pending file name that is still missing from disk after
the 15 second bound is removed from Pending Arrivals, but it is NOT added
to the Failed File Log: the timeout branch of _poll_for_new_documents only
prints a message, so the log contents are unchanged as far as that name is
concerned. -/
theorem abandonedPendingRemovedNotLogged (s : EngineState)
    (pending : List (String × Nat)) (disk : String → Option FoundDoc) (now : Nat)
    (name : String) (t0 : Nat)
    (hmem : (name, t0) ∈ pending) (hdisk : disk name = none) (hto : now - t0 > 15) :
    (∀ it ∈ (pollScan s pending disk now).2, it.1 ≠ name) ∧
    (name ∈ (pollScan s pending disk now).1.failedLog ↔ name ∈ s.failedLog) := by
  constructor
  · intro it hit heq
    unfold pollScan at hit
    obtain ⟨_, hflt⟩ := List.mem_filter.mp hit
    have hin : name ∈ (pending.foldl (pollScanStep disk now) (s, [])).2 :=
      pollScanFold_removes_mem disk now pending name t0 hmem hdisk hto (s, [])
    rw [heq] at hflt
    simp only [Bool.not_eq_true', ← Bool.not_eq_true] at hflt
    exact hflt (by simpa using hin)
  · exact pollScanFold_failedLog disk now pending name hdisk (s, [])

/-- C7 counterexample: a pending entry for a.pdf first seen at time 0, not
found on disk, scanned at time 16 (past the 15 second bound). The claim
states the name then appears in the Failed File Log; the code only removes
it from Pending Arrivals and prints, so the log stays empty and the name
is NOT in it. -/
theorem abandonedPendingCounterexample :
    (∀ it ∈ (pollScan ⟨[], fun _ => ⟨false, none⟩, []⟩
        [("a.pdf", 0)] (fun _ => none) 16).2, it.1 ≠ "a.pdf") ∧
    "a.pdf" ∉ (pollScan ⟨[], fun _ => ⟨false, none⟩, []⟩
        [("a.pdf", 0)] (fun _ => none) 16).1.failedLog := by
  constructor
  · decide
  · decide

theorem abandonedPendingRemovedNotLoggedWitness :
    (("b.pdf", (1 : Nat)) ∈ [("b.pdf", (1 : Nat))] ∧
      (fun _ : String => (none : Option FoundDoc)) "b.pdf" = none ∧ 20 - 1 > 15) ∧
    ((∀ it ∈ (pollScan ⟨[], fun _ => ⟨false, none⟩, ["b.pdf"]⟩
        [("b.pdf", 1)] (fun _ => none) 20).2, it.1 ≠ "b.pdf") ∧
     ("b.pdf" ∈ (pollScan ⟨[], fun _ => ⟨false, none⟩, ["b.pdf"]⟩
        [("b.pdf", 1)] (fun _ => none) 20).1.failedLog ↔ "b.pdf" ∈ ["b.pdf"])) :=
  ⟨⟨by decide, rfl, by decide⟩,
    abandonedPendingRemovedNotLogged ⟨[], fun _ => ⟨false, none⟩, ["b.pdf"]⟩
      [("b.pdf", 1)] (fun _ => none) 20 "b.pdf" 1 (by decide) rfl (by decide)⟩

/- ===== C5 ===== -/

theorem mem_of_mem_dedupPairsF :
    ∀ (fuel : Nat) (l : List (Option Nat × String)) (a : Option Nat × String),
      a ∈ dedupPairsF fuel l → a ∈ l := by
  intro fuel
  induction fuel with
  | zero =>
    intro l a h
    cases l with
    | nil => cases h
    | cons x xs => cases h
  | succ f ih =>
    intro l a h
    cases l with
    | nil => cases h
    | cons x xs =>
      rcases List.mem_cons.mp h with rfl | h2
      · exact List.mem_cons_self _ _
      · exact List.mem_cons_of_mem _ (List.mem_filter.mp (ih _ _ h2)).1

theorem mem_searchPass_filter (matcher : String → String → Bool) (idx : List IndexRow)
    (q : String) (x : Nat) (xs : List Nat) (p : Option Nat × String)
    (hp : p ∈ searchPass matcher idx q (some (x :: xs))) :
    ∃ i, p.1 = some i ∧ i ∈ x :: xs := by
  unfold searchPass at hp
  have hp2 := mem_of_mem_dedupPairsF _ _ _ hp
  obtain ⟨r, hr, hpr⟩ := List.mem_map.mp hp2
  obtain ⟨_, hcond⟩ := List.mem_filter.mp hr
  rw [Bool.and_eq_true] at hcond
  have hfil := hcond.2
  unfold inIdFilter at hfil
  cases ho : r.originalId with
  | none => rw [ho] at hfil; cases hfil
  | some i =>
    rw [ho] at hfil
    refine ⟨i, ?_, ?_⟩
    · rw [← hpr]
      exact ho
    · simpa using hfil

/-- C5 amended: search_database runs the exact-phrase pass first and falls
back to the substring pass exactly when the phrase pass returns no rows;
when a NON-EMPTY id filter is supplied, every returned row carries an
original_id from the supplied set. (A supplied-but-EMPTY filter list is
falsy in Python, so the IN clause is omitted and results are not
restricted; see the counterexample.) The theorem is parametric in the two
SQL match predicates evaluated by SQLite. -/
theorem searchPhraseThenFallback (phraseOk likeOk : String → String → Bool)
    (idx : List IndexRow) (q : String) (sel : Option (List Nat)) :
    (searchPass phraseOk idx q sel ≠ [] →
      searchDatabase phraseOk likeOk idx q sel = searchPass phraseOk idx q sel) ∧
    (searchPass phraseOk idx q sel = [] →
      searchDatabase phraseOk likeOk idx q sel = searchPass likeOk idx q sel) ∧
    (∀ x xs, sel = some (x :: xs) →
      ∀ p ∈ searchDatabase phraseOk likeOk idx q sel, ∃ i, p.1 = some i ∧ i ∈ x :: xs) := by
  refine ⟨?_, ?_, ?_⟩
  · intro hne
    unfold searchDatabase
    rw [if_neg (by simpa [List.isEmpty_iff] using hne)]
  · intro hemp
    unfold searchDatabase
    rw [if_pos (by simpa [List.isEmpty_iff] using hemp)]
  · intro x xs hsel p hp
    unfold searchDatabase at hp
    by_cases hemp : (searchPass phraseOk idx q sel).isEmpty
    · rw [if_pos hemp] at hp
      exact mem_searchPass_filter likeOk idx q x xs p (hsel ▸ hp)
    · rw [if_neg hemp] at hp
      exact mem_searchPass_filter phraseOk idx q x xs p (hsel ▸ hp)

/-- C5 counterexample: one indexed row with original_id 5 and content
"hello world"; the query "hello" with a SUPPLIED id filter that is the
empty list returns that row, although an id filter restricting results to
the empty set would have to return nothing: Python treats the empty list
as falsy and omits the IN clause entirely. -/
theorem searchEmptyFilterCounterexample :
    searchDatabase phraseMatchModel likeMatchModel
      [⟨some 5, "f.txt", "hello world", none, "h1"⟩] "hello" (some []) =
      [(some 5, "f.txt")] ∧
    ¬ (5 : Nat) ∈ ([] : List Nat) := by
  exact ⟨by decide, by decide⟩

theorem searchPhraseThenFallbackWitness :
    (searchPass phraseMatchModel
        [⟨some 5, "f.txt", "alpha beta", none, "h1"⟩, ⟨some 7, "g.txt", "gamma", none, "h2"⟩]
        "alpha" (some [5]) ≠ [] ∧
     searchPass phraseMatchModel
        [⟨some 5, "f.txt", "alpha beta", none, "h1"⟩, ⟨some 7, "g.txt", "gamma", none, "h2"⟩]
        "alph" (some [5]) = []) ∧
    (searchDatabase phraseMatchModel likeMatchModel
        [⟨some 5, "f.txt", "alpha beta", none, "h1"⟩, ⟨some 7, "g.txt", "gamma", none, "h2"⟩]
        "alpha" (some [5]) =
      searchPass phraseMatchModel
        [⟨some 5, "f.txt", "alpha beta", none, "h1"⟩, ⟨some 7, "g.txt", "gamma", none, "h2"⟩]
        "alpha" (some [5]) ∧
     searchDatabase phraseMatchModel likeMatchModel
        [⟨some 5, "f.txt", "alpha beta", none, "h1"⟩, ⟨some 7, "g.txt", "gamma", none, "h2"⟩]
        "alph" (some [5]) =
      searchPass likeMatchModel
        [⟨some 5, "f.txt", "alpha beta", none, "h1"⟩, ⟨some 7, "g.txt", "gamma", none, "h2"⟩]
        "alph" (some [5]) ∧
     ∀ p ∈ searchDatabase phraseMatchModel likeMatchModel
        [⟨some 5, "f.txt", "alpha beta", none, "h1"⟩, ⟨some 7, "g.txt", "gamma", none, "h2"⟩]
        "alpha" (some [5]), ∃ i, p.1 = some i ∧ i ∈ [5]) :=
  ⟨⟨by decide, by decide⟩,
    (searchPhraseThenFallback phraseMatchModel likeMatchModel
      [⟨some 5, "f.txt", "alpha beta", none, "h1"⟩, ⟨some 7, "g.txt", "gamma", none, "h2"⟩]
      "alpha" (some [5])).1 (by decide),
    (searchPhraseThenFallback phraseMatchModel likeMatchModel
      [⟨some 5, "f.txt", "alpha beta", none, "h1"⟩, ⟨some 7, "g.txt", "gamma", none, "h2"⟩]
      "alph" (some [5])).2.1 (by decide),
    (searchPhraseThenFallback phraseMatchModel likeMatchModel
      [⟨some 5, "f.txt", "alpha beta", none, "h1"⟩, ⟨some 7, "g.txt", "gamma", none, "h2"⟩]
      "alpha" (some [5])).2.2 5 [] rfl⟩

/- ===== C4 ===== -/

/-- Known-answer test: SHA-256 of "abc" (FIPS 180-4 example), validating
the hash implementation used by the fingerprint. -/
theorem sha256KatAbc :
    sha256Hex (utf8Bytes "abc") =
      "ba7816bf8f01cfea414140de5dae2223b00361a396177a9cb410ff61f20015ad" := by
  decide

/-- Known-answer test: SHA-256 of the empty string. -/
theorem sha256KatEmpty :
    sha256Hex (utf8Bytes "") =
      "e3b0c44298fc1c149afbf4c8996fb92427ae41e4649b934ca495991b7852b855" := by
  decide

/-- Known-answer test: AES-128 block encryption (FIPS-197 appendix C.1). -/
theorem aesKatFips197 :
    aesEncryptBlock
      [0, 1, 2, 3, 4, 5, 6, 7, 8, 9, 10, 11, 12, 13, 14, 15]
      [0x00, 0x11, 0x22, 0x33, 0x44, 0x55, 0x66, 0x77,
       0x88, 0x99, 0xaa, 0xbb, 0xcc, 0xdd, 0xee, 0xff] =
      [0x69, 0xc4, 0xe0, 0xd8, 0x6a, 0x7b, 0x04, 0x30,
       0xd8, 0xcd, 0xb7, 0x80, 0x70, 0xb4, 0xc5, 0x5a] := by
  decide

/-- Known-answer test: AES-128-GCM with zero key, zero IV and empty
plaintext (NIST GCM test case 1). -/
theorem gcmKatCase1 :
    gcmTag (List.replicate 16 0) (List.replicate 12 0) [] =
      [0x58, 0xe2, 0xfc, 0xce, 0xfa, 0x7e, 0x30, 0x61,
       0x36, 0x7f, 0x1d, 0x57, 0xa4, 0xe7, 0x45, 0x5a] := by
  decide

/-- Known-answer test: AES-128-GCM with zero key, zero IV and one zero
block (NIST GCM test case 2), ciphertext and tag. -/
theorem gcmKatCase2 :
    gcmCiphertext (List.replicate 16 0) (List.replicate 12 0) (List.replicate 16 0) =
      [0x03, 0x88, 0xda, 0xce, 0x60, 0xb6, 0xa3, 0x92,
       0xf3, 0x28, 0xc2, 0xb9, 0x71, 0xb2, 0xfe, 0x78] ∧
    gcmTag (List.replicate 16 0) (List.replicate 12 0)
      [0x03, 0x88, 0xda, 0xce, 0x60, 0xb6, 0xa3, 0x92,
       0xf3, 0x28, 0xc2, 0xb9, 0x71, 0xb2, 0xfe, 0x78] =
      [0xab, 0x6e, 0x47, 0xd4, 0x2c, 0xec, 0x13, 0xbd,
       0xf5, 0x3a, 0x67, 0xb2, 0x12, 0x57, 0xbd, 0xdf] := by
  exact ⟨by decide, by decide⟩

theorem length_natToBytesBE (k n : Nat) : (natToBytesBE k n).length = k := by
  simp [natToBytesBE]

theorem length_flatMapL_const (f : α → List β) (k : Nat) (hf : ∀ a, (f a).length = k) :
    ∀ l : List α, (flatMapL f l).length = k * l.length := by
  intro l
  induction l with
  | nil => simp [flatMapL]
  | cons x xs ih =>
    simp [flatMapL, hf x, ih, List.length_cons, Nat.mul_succ]
    omega

theorem length_keystream (key : List Nat) (icb len : Nat) :
    (keystream key icb len).length = 16 * ((len + 15) / 16) := by
  unfold keystream
  rw [length_flatMapL_const _ 16 (fun a => length_natToBytesBE 16 _)]
  simp

theorem len_le_length_keystream (key : List Nat) (icb len : Nat) :
    len ≤ (keystream key icb len).length := by
  rw [length_keystream]
  omega

theorem length_xorBytes (a b : List Nat) : (xorBytes a b).length = min a.length b.length := by
  simp [xorBytes, List.length_zipWith]

theorem length_gcmCiphertext (key iv msg : List Nat) :
    (gcmCiphertext key iv msg).length = msg.length := by
  unfold gcmCiphertext
  rw [length_xorBytes]
  have := len_le_length_keystream key (ctrAdd (gcmJ0 iv) 1) msg.length
  omega

theorem xorBytes_cancel : ∀ (a b : List Nat), a.length ≤ b.length →
    xorBytes (xorBytes a b) b = a := by
  intro a
  induction a with
  | nil => intro b _; rfl
  | cons x xs ih =>
    intro b hb
    cases b with
    | nil => simp at hb
    | cons y ys =>
      show (x ^^^ y ^^^ y) :: xorBytes (xorBytes xs ys) ys = x :: xs
      rw [Nat.xor_assoc, Nat.xor_self, Nat.xor_zero, ih ys (by simpa using hb)]

theorem decryptStream_short (key input : List Nat) (h : input.length < 12) :
    decryptStream key input = .error .ivMissing := by
  unfold decryptStream
  rw [if_pos h]

theorem decryptStream_midrange (key input : List Nat)
    (h12 : 12 ≤ input.length) (h28 : input.length < 28) :
    decryptStream key input = .error .tagTooShort := by
  have h12' : ¬ input.length < 12 := by omega
  have hlen : ((input.drop 12).drop ((input.drop 12).length - 16)).length ≠ 16 := by
    simp
    omega
  simp only [decryptStream]
  rw [if_neg h12', if_pos hlen]

theorem decryptStream_layout (key iv ct tg : List Nat)
    (hiv : iv.length = 12) (htg : tg.length = 16) :
    decryptStream key (iv ++ ct ++ tg) =
      (if gcmTag key iv ct = tg then
        .ok (xorBytes ct (keystream key (ctrAdd (gcmJ0 iv) 1) ct.length))
       else .error .authFailure) := by
  have hassoc : iv ++ ct ++ tg = iv ++ (ct ++ tg) := List.append_assoc iv ct tg
  have htake : (iv ++ (ct ++ tg)).take 12 = iv := by
    rw [← hiv]
    exact List.take_left iv (ct ++ tg)
  have hdrop : (iv ++ (ct ++ tg)).drop 12 = ct ++ tg := by
    rw [← hiv]
    exact List.drop_left iv (ct ++ tg)
  have hrest : (ct ++ tg).length - 16 = ct.length := by
    simp [List.length_append, htg]
  have htake2 : (ct ++ tg).take ct.length = ct := List.take_left ct tg
  have hdrop2 : (ct ++ tg).drop ct.length = tg := List.drop_left ct tg
  simp only [decryptStream, hassoc, htake, hdrop, hrest, htake2, hdrop2]
  rw [if_neg (by simp [hiv]), if_neg (by simp [htg])]

/-- C4 amended: for every message, 16-byte key and 12-byte IV the encrypt
and decrypt streams round-trip; the encrypted output has the layout
12-byte IV, then a ciphertext of exactly the message length (no padding),
then the 16-byte GCM tag, all per AES-128-GCM (validated by the
known-answer theorems above). Decryption failures fall in three regimes:
a stream shorter than 12 bytes fails with the distinct
IllegalStateException of line 62 (IV missing); a stream of 12 to 27 bytes
leaves a tag slice shorter than 16 bytes and fails with the distinct
ValueError raised when modes.GCM is constructed; a stream of 28 or more
bytes reaches the authentication check, where a corrupted tag or a wrong
key fails with InvalidTag — but a never-encrypted stream of 28 or more
bytes also fails with that same InvalidTag, so in that last regime the
wrong-key case is not distinguishable from not-encrypted input (see the
counterexample). -/
theorem aesGcmStreamRoundTrip (key iv msg : List Nat)
    (hkey : key.length = 16) (hiv : iv.length = 12) :
    decryptStream key (encryptStream key iv msg) = .ok msg ∧
    encryptStream key iv msg =
      iv ++ gcmCiphertext key iv msg ++ gcmTag key iv (gcmCiphertext key iv msg) ∧
    (gcmCiphertext key iv msg).length = msg.length ∧
    (gcmTag key iv (gcmCiphertext key iv msg)).length = 16 ∧
    (encryptStream key iv msg).length = 12 + msg.length + 16 ∧
    (∀ input : List Nat, input.length < 12 →
      decryptStream key input = .error .ivMissing) ∧
    (∀ input : List Nat, 12 ≤ input.length → input.length < 28 →
      decryptStream key input = .error .tagTooShort) ∧
    (∀ tag2 : List Nat, tag2.length = 16 →
      tag2 ≠ gcmTag key iv (gcmCiphertext key iv msg) →
      decryptStream key (iv ++ gcmCiphertext key iv msg ++ tag2) =
        .error .authFailure) := by
  have hct : (gcmCiphertext key iv msg).length = msg.length := length_gcmCiphertext key iv msg
  have htg : (gcmTag key iv (gcmCiphertext key iv msg)).length = 16 := length_natToBytesBE 16 _
  refine ⟨?_, rfl, hct, htg, by simp [encryptStream, hiv, hct, htg]; omega, ?_, ?_, ?_⟩
  · show decryptStream key
      (iv ++ gcmCiphertext key iv msg ++ gcmTag key iv (gcmCiphertext key iv msg)) = .ok msg
    rw [decryptStream_layout key iv _ _ hiv htg, if_pos rfl, hct]
    show Except.ok (xorBytes (xorBytes msg (keystream key (ctrAdd (gcmJ0 iv) 1) msg.length))
      (keystream key (ctrAdd (gcmJ0 iv) 1) msg.length)) = Except.ok msg
    rw [xorBytes_cancel msg _ (len_le_length_keystream key _ msg.length)]
  · exact fun input h => decryptStream_short key input h
  · exact fun input h1 h2 => decryptStream_midrange key input h1 h2
  · intro tag2 h16 hne
    rw [decryptStream_layout key iv _ _ hiv h16, if_neg (fun h => hne h.symm)]

/-- C4 counterexample: decrypting a valid encryption under a WRONG key
fails with exactly the same observable failure (the InvalidTag
authentication error) as decrypting a 28-byte stream that was never
encrypted at all; the claim that the wrong-key/corrupted-tag failure is
distinguishable from the not-encrypted case therefore fails. Only shorter
streams fail distinguishably: below 12 bytes with IllegalStateException,
and from 12 to 27 bytes with the ValueError of a short tag slice, as the
third conjunct exhibits on a 20-byte plain stream. -/
theorem wrongKeyVsPlainIndistinguishable :
    decryptStream (1 :: List.replicate 15 0)
      (encryptStream (List.replicate 16 0) (List.replicate 12 3) [10, 20, 30]) =
      .error .authFailure ∧
    decryptStream (List.replicate 16 0) (List.replicate 28 65) =
      .error .authFailure ∧
    decryptStream (List.replicate 16 0) (List.replicate 20 65) =
      .error .tagTooShort := by
  exact ⟨by decide, by decide, by decide⟩

theorem aesGcmStreamRoundTripWitness :
    ((List.replicate 16 7 : List Nat).length = 16 ∧
      (List.range 12).length = 12) ∧
    decryptStream (List.replicate 16 7)
      (encryptStream (List.replicate 16 7) (List.range 12) [1, 2, 3]) = .ok [1, 2, 3] ∧
    (encryptStream (List.replicate 16 7) (List.range 12) [1, 2, 3]).length = 12 + 3 + 16 :=
  ⟨⟨by decide, by decide⟩,
    (aesGcmStreamRoundTrip (List.replicate 16 7) (List.range 12) [1, 2, 3]
      (by decide) (by decide)).1,
    (aesGcmStreamRoundTrip (List.replicate 16 7) (List.range 12) [1, 2, 3]
      (by decide) (by decide)).2.2.2.2.1⟩

/- ===== C1 ===== -/

theorem filter_hash_map_of_preserve (g : IndexRow → IndexRow)
    (hg : ∀ r, (g r).hash = r.hash) (l : List IndexRow) (h : String) :
    (l.map g).filter (fun r => r.hash == h) = (l.filter (fun r => r.hash == h)).map g := by
  induction l with
  | nil => rfl
  | cons x xs ih =>
    simp only [List.map_cons, List.filter_cons, hg x]
    by_cases hc : (x.hash == h) = true <;> simp [hc, ih]

theorem tieBreakAux1 (a b : Nat) (dA dB : DocInput) (s0 : EngineState)
    (hab : a < b)
    (hAv : dA.validExt = true) (hAid : dA.docId = some a)
    (hAe : dA.extractError = false) (hAt : textIsEmpty dA.text = false)
    (hBv : dB.validExt = true) (hBid : dB.docId = some b)
    (hBe : dB.extractError = false) (hBt : textIsEmpty dB.text = false)
    (hhash : hashOfDoc dA = hashOfDoc dB)
    (hfree : ∀ r ∈ s0.index, r.hash ≠ hashOfDoc dA) :
    (processAll s0 [dA, dB]).details a = ⟨false, none⟩ ∧
    (processAll s0 [dA, dB]).details b = ⟨true, some a⟩ ∧
    lookupHash (processAll s0 [dA, dB]).index (hashOfDoc dA) = some (some a) ∧
    (∀ r ∈ (processAll s0 [dA, dB]).index,
      r.hash = hashOfDoc dA → r.originalId = some a) := by
  have hne : a ≠ b := Nat.ne_of_lt hab
  have s1eq : processSingleDocument s0 dA =
      ({ s0 with
         index := s0.index ++
           [IndexRow.mk (some a) dA.fileName (dA.text.getD "") dA.qrData (hashOfDoc dA)],
         details := updDetails s0.details a ⟨false, none⟩ }, .originalInserted) := by
    rw [processSingleDocument_good s0 dA a hAv hAid hAe hAt]
    exact dedupAndStore_insert s0 a dA.fileName (dA.text.getD "") dA.qrData
      (lookupHash_of_filter_nil _ _ (filter_hash_nil_of_free _ _ hfree))
  have filterA : (s0.index ++
      [IndexRow.mk (some a) dA.fileName (dA.text.getD "") dA.qrData (hashOfDoc dA)]).filter
        (fun r => r.hash == hashOfDoc dA) =
      [IndexRow.mk (some a) dA.fileName (dA.text.getD "") dA.qrData (hashOfDoc dA)] := by
    rw [List.filter_append, filter_hash_nil_of_free _ _ hfree]
    simp
  have hlook : lookupHash (s0.index ++
      [IndexRow.mk (some a) dA.fileName (dA.text.getD "") dA.qrData (hashOfDoc dA)])
        (hashOfDoc dB) = some (some a) := by
    rw [← hhash]
    exact lookupHash_of_filter_singleton _ _ _ filterA
  have hall : processAll s0 [dA, dB] =
      (processSingleDocument (processSingleDocument s0 dA).1 dB).1 := rfl
  rw [hall, s1eq]
  have s2eq : processSingleDocument
      ({ s0 with
         index := s0.index ++
           [IndexRow.mk (some a) dA.fileName (dA.text.getD "") dA.qrData (hashOfDoc dA)],
         details := updDetails s0.details a ⟨false, none⟩ } : EngineState) dB =
      ({ s0 with
         index := s0.index ++
           [IndexRow.mk (some a) dA.fileName (dA.text.getD "") dA.qrData (hashOfDoc dA)],
         details := updDetails (updDetails s0.details a ⟨false, none⟩) b
           ⟨true, some a⟩ }, .markedDuplicate) := by
    rw [processSingleDocument_good _ dB b hBv hBid hBe hBt]
    exact dedupAndStore_duplicate _ b a dB.fileName (dB.text.getD "") dB.qrData hlook
      (Nat.lt_asymm hab)
  rw [s2eq]
  dsimp only
  refine ⟨?_, updDetails_same _ _ _, ?_, ?_⟩
  · rw [updDetails_other _ _ _ a hne, updDetails_same]
  · exact lookupHash_of_filter_singleton _ _ _ filterA
  · intro r hr hhr
    rcases List.mem_append.mp hr with hr0 | hr1
    · exact absurd hhr (hfree r hr0)
    · rw [List.mem_singleton.mp hr1]

theorem tieBreakAux2 (a b : Nat) (dA dB : DocInput) (s0 : EngineState)
    (hab : a < b)
    (hAv : dA.validExt = true) (hAid : dA.docId = some a)
    (hAe : dA.extractError = false) (hAt : textIsEmpty dA.text = false)
    (hBv : dB.validExt = true) (hBid : dB.docId = some b)
    (hBe : dB.extractError = false) (hBt : textIsEmpty dB.text = false)
    (hhash : hashOfDoc dA = hashOfDoc dB)
    (hfree : ∀ r ∈ s0.index, r.hash ≠ hashOfDoc dA) :
    (processAll s0 [dB, dA]).details a = ⟨false, none⟩ ∧
    (processAll s0 [dB, dA]).details b = ⟨true, some a⟩ ∧
    lookupHash (processAll s0 [dB, dA]).index (hashOfDoc dA) = some (some a) ∧
    (∀ r ∈ (processAll s0 [dB, dA]).index,
      r.hash = hashOfDoc dA → r.originalId = some a) := by
  have hne : b ≠ a := (Nat.ne_of_lt hab).symm
  have hfreeB : ∀ r ∈ s0.index, r.hash ≠ hashOfDoc dB := by
    intro r hr
    rw [← hhash]
    exact hfree r hr
  have s1eq : processSingleDocument s0 dB =
      ({ s0 with
         index := s0.index ++
           [IndexRow.mk (some b) dB.fileName (dB.text.getD "") dB.qrData (hashOfDoc dB)],
         details := updDetails s0.details b ⟨false, none⟩ }, .originalInserted) := by
    rw [processSingleDocument_good s0 dB b hBv hBid hBe hBt]
    exact dedupAndStore_insert s0 b dB.fileName (dB.text.getD "") dB.qrData
      (lookupHash_of_filter_nil _ _ (filter_hash_nil_of_free _ _ hfreeB))
  have filterB : (s0.index ++
      [IndexRow.mk (some b) dB.fileName (dB.text.getD "") dB.qrData (hashOfDoc dB)]).filter
        (fun r => r.hash == hashOfDoc dA) =
      [IndexRow.mk (some b) dB.fileName (dB.text.getD "") dB.qrData (hashOfDoc dB)] := by
    rw [List.filter_append, filter_hash_nil_of_free _ _ hfree]
    simp [hhash]
  have hlook : lookupHash (s0.index ++
      [IndexRow.mk (some b) dB.fileName (dB.text.getD "") dB.qrData (hashOfDoc dB)])
        (hashOfDoc dA) = some (some b) := by
    exact lookupHash_of_filter_singleton _ _ _ filterB
  have hall : processAll s0 [dB, dA] =
      (processSingleDocument (processSingleDocument s0 dB).1 dA).1 := rfl
  rw [hall, s1eq]
  have s2eq : processSingleDocument
      ({ s0 with
         index := s0.index ++
           [IndexRow.mk (some b) dB.fileName (dB.text.getD "") dB.qrData (hashOfDoc dB)],
         details := updDetails s0.details b ⟨false, none⟩ } : EngineState) dA =
      ({ s0 with
         index := (s0.index ++
           [IndexRow.mk (some b) dB.fileName (dB.text.getD "") dB.qrData (hashOfDoc dB)]).map
             (fun r => if r.originalId == some b
               then { r with originalId := some a } else r),
         details := updDetails (updDetails (updDetails s0.details b ⟨false, none⟩) b
           ⟨true, some a⟩) a ⟨false, none⟩ }, .markedOriginal) := by
    rw [processSingleDocument_good _ dA a hAv hAid hAe hAt]
    exact dedupAndStore_repoint _ a b dA.fileName (dA.text.getD "") dA.qrData hlook hab
  rw [s2eq]
  dsimp only
  have hg : ∀ r : IndexRow,
      ((fun r => if r.originalId == some b
        then { r with originalId := some a } else r) r).hash = r.hash := by
    intro r
    by_cases hc : (r.originalId == some b) = true
    · simp [hc]
    · simp [hc]
  have filterMapped : ((s0.index ++
      [IndexRow.mk (some b) dB.fileName (dB.text.getD "") dB.qrData (hashOfDoc dB)]).map
        (fun r => if r.originalId == some b
          then { r with originalId := some a } else r)).filter
        (fun r => r.hash == hashOfDoc dA) =
      [IndexRow.mk (some a) dB.fileName (dB.text.getD "") dB.qrData (hashOfDoc dB)] := by
    rw [filter_hash_map_of_preserve _ hg, filterB]
    simp
  refine ⟨updDetails_same _ _ _, ?_, ?_, ?_⟩
  · rw [updDetails_other _ _ _ b hne, updDetails_same]
  · rw [lookupHash_of_filter_singleton _ _ _ filterMapped]
  · intro r hr hhr
    obtain ⟨r0, hr0, hr0eq⟩ := List.mem_map.mp hr
    rcases List.mem_append.mp hr0 with hin | hin
    · have : r.hash = r0.hash := by rw [← hr0eq]; exact hg r0
      rw [this] at hhr
      exact absurd hhr (hfree r0 hin)
    · rw [List.mem_singleton.mp hin] at hr0eq
      rw [← hr0eq]
      simp

/-- C1: two canonical ids a < b with identical content fingerprints,
processed in either order from a state whose index does not yet contain
that fingerprint: the final state always has a marked original
(is_duplicate 0, document_id NULL), b marked duplicate of a
(is_duplicate 1, document_id a), and the Search Index entry for the
fingerprint carries original_id a. -/
theorem tieBreakOrderIndependent (a b : Nat) (dA dB : DocInput) (s0 : EngineState)
    (hab : a < b)
    (hAv : dA.validExt = true) (hAid : dA.docId = some a)
    (hAe : dA.extractError = false) (hAt : textIsEmpty dA.text = false)
    (hBv : dB.validExt = true) (hBid : dB.docId = some b)
    (hBe : dB.extractError = false) (hBt : textIsEmpty dB.text = false)
    (hhash : hashOfDoc dA = hashOfDoc dB)
    (hfree : ∀ r ∈ s0.index, r.hash ≠ hashOfDoc dA) :
    ∀ sf ∈ [processAll s0 [dA, dB], processAll s0 [dB, dA]],
      sf.details a = ⟨false, none⟩ ∧
      sf.details b = ⟨true, some a⟩ ∧
      lookupHash sf.index (hashOfDoc dA) = some (some a) ∧
      (∀ r ∈ sf.index, r.hash = hashOfDoc dA → r.originalId = some a) := by
  intro sf hsf
  rcases List.mem_cons.mp hsf with rfl | hsf2
  · exact tieBreakAux1 a b dA dB s0 hab hAv hAid hAe hAt hBv hBid hBe hBt hhash hfree
  · rw [List.mem_singleton.mp hsf2]
    exact tieBreakAux2 a b dA dB s0 hab hAv hAid hAe hAt hBv hBid hBe hBt hhash hfree

theorem tieBreakOrderIndependentWitness :
    (5 < 9 ∧
     hashOfDoc ⟨"v1.pdf", true, some 5, false, some "same  text", none⟩ =
       hashOfDoc ⟨"v2.pdf", true, some 9, false, some "same text ", none⟩) ∧
    ((processAll ⟨[], fun _ => ⟨false, none⟩, []⟩
        [⟨"v1.pdf", true, some 5, false, some "same  text", none⟩,
         ⟨"v2.pdf", true, some 9, false, some "same text ", none⟩]).details 5 =
       ⟨false, none⟩ ∧
     (processAll ⟨[], fun _ => ⟨false, none⟩, []⟩
        [⟨"v1.pdf", true, some 5, false, some "same  text", none⟩,
         ⟨"v2.pdf", true, some 9, false, some "same text ", none⟩]).details 9 =
       ⟨true, some 5⟩) ∧
    ((processAll ⟨[], fun _ => ⟨false, none⟩, []⟩
        [⟨"v2.pdf", true, some 9, false, some "same text ", none⟩,
         ⟨"v1.pdf", true, some 5, false, some "same  text", none⟩]).details 5 =
       ⟨false, none⟩ ∧
     (processAll ⟨[], fun _ => ⟨false, none⟩, []⟩
        [⟨"v2.pdf", true, some 9, false, some "same text ", none⟩,
         ⟨"v1.pdf", true, some 5, false, some "same  text", none⟩]).details 9 =
       ⟨true, some 5⟩ ∧
     lookupHash (processAll ⟨[], fun _ => ⟨false, none⟩, []⟩
        [⟨"v2.pdf", true, some 9, false, some "same text ", none⟩,
         ⟨"v1.pdf", true, some 5, false, some "same  text", none⟩]).index
       (hashOfDoc ⟨"v1.pdf", true, some 5, false, some "same  text", none⟩) =
       some (some 5)) := by
  have h := tieBreakOrderIndependent 5 9
    ⟨"v1.pdf", true, some 5, false, some "same  text", none⟩
    ⟨"v2.pdf", true, some 9, false, some "same text ", none⟩
    ⟨[], fun _ => ⟨false, none⟩, []⟩
    (by decide) rfl rfl rfl (by decide) rfl rfl rfl (by decide) (by decide)
    (by intro r hr; cases hr)
  have h1 := h _ (List.mem_cons_self _ _)
  have h2 := h _ (List.mem_cons_of_mem _ (List.mem_cons_self _ _))
  exact ⟨⟨by decide, by decide⟩, ⟨h1.1, h1.2.1⟩, ⟨h2.1, h2.2.1, h2.2.2.1⟩⟩

/- ===== C2 ===== -/

theorem minNat?_mem : ∀ (l : List Nat) (m : Nat), minNat? l = some m → m ∈ l := by
  intro l
  induction l with
  | nil => intro m h; cases h
  | cons x xs ih =>
    intro m h
    simp only [minNat?] at h
    cases hxs : minNat? xs with
    | none =>
      rw [hxs] at h
      simp only [Option.some.injEq] at h
      rw [← h]
      exact List.mem_cons_self _ _
    | some m2 =>
      rw [hxs] at h
      simp only [Option.some.injEq] at h
      rcases Nat.le_total x m2 with hle | hle
      · rw [Nat.min_eq_left hle] at h
        rw [← h]
        exact List.mem_cons_self _ _
      · rw [Nat.min_eq_right hle] at h
        rw [← h]
        exact List.mem_cons_of_mem _ (ih m2 hxs)

theorem minNat?_append_single (l : List Nat) (x : Nat) :
    minNat? (l ++ [x]) =
      some (match minNat? l with | none => x | some m => min m x) := by
  induction l with
  | nil => simp [minNat?]
  | cons y ys ih =>
    have lhs : minNat? ((y :: ys) ++ [x]) =
        some (match minNat? (ys ++ [x]) with | none => y | some m => min y m) := rfl
    have rhs : minNat? (y :: ys) =
        some (match minNat? ys with | none => y | some m => min y m) := rfl
    rw [lhs, ih, rhs]
    cases hys : minNat? ys with
    | none => rfl
    | some m =>
      simp only [Option.some.injEq]
      exact (Nat.min_assoc y m x).symm

theorem classIds_append_single (P : List DocInput) (d : DocInput) (h : String) :
    classIds (P ++ [d]) h =
      classIds P h ++ (if hashOfDoc d = h then [idOf d] else []) := by
  have hfd : [d].filter (fun x => hashOfDoc x == h) =
      (if hashOfDoc d = h then [d] else []) := by
    by_cases hc : hashOfDoc d = h
    · rw [if_pos hc]
      simp [List.filter_cons, hc]
    · rw [if_neg hc]
      simp [List.filter_cons, hc]
  unfold classIds
  rw [List.filter_append, List.map_append, hfd]
  by_cases hc : hashOfDoc d = h
  · rw [if_pos hc, if_pos hc]
    rfl
  · rw [if_neg hc, if_neg hc]
    rfl

theorem mem_classIds (P : List DocInput) (h : String) (x : Nat) :
    x ∈ classIds P h ↔ ∃ d ∈ P, hashOfDoc d = h ∧ idOf d = x := by
  unfold classIds
  constructor
  · intro hx
    obtain ⟨d, hd, hdx⟩ := List.mem_map.mp hx
    obtain ⟨hdP, hdh⟩ := List.mem_filter.mp hd
    exact ⟨d, hdP, beq_iff_eq.mp hdh, hdx⟩
  · rintro ⟨d, hdP, hdh, hdx⟩
    exact List.mem_map.mpr ⟨d, List.mem_filter.mpr ⟨hdP, beq_iff_eq.mpr hdh⟩, hdx⟩

theorem filter_singleton_len_le_one (r : IndexRow) (h : String) :
    (([r] : List IndexRow).filter (fun x => x.hash == h)).length ≤ 1 := by
  by_cases hc : (r.hash == h) = true
  · simp [List.filter_cons, hc]
  · simp [List.filter_cons, hc]

theorem IndexInv_step (P : List DocInput) (s : EngineState) (d : DocInput) (i : Nat)
    (hv : d.validExt = true) (hid : d.docId = some i) (he : d.extractError = false)
    (ht : textIsEmpty d.text = false)
    (hinv : IndexInv P s.index)
    (hnodup : ((P ++ [d]).map idOf).Nodup) :
    IndexInv (P ++ [d]) (processSingleDocument s d).1.index := by
  obtain ⟨hu, hmin, hcov⟩ := hinv
  have hnodupP : (P.map idOf).Nodup := by
    rw [List.map_append] at hnodup
    exact (List.nodup_append.mp hnodup).1
  have hidOf : idOf d = i := by
    unfold idOf
    rw [hid]
    rfl
  rw [processSingleDocument_good s d i hv hid he ht]
  rcases lengthLeOneCases _ (hu (hashOfDoc d)) with hcls | ⟨r0, hcls⟩
  · -- no entry with this hash: insert branch
    have hlook : lookupHash s.index (hashValue (d.text.getD "") d.qrData) = none :=
      lookupHash_of_filter_nil _ _ hcls
    rw [dedupAndStore_insert s i d.fileName (d.text.getD "") d.qrData hlook]
    dsimp only
    rw [show hashValue (d.text.getD "") d.qrData = hashOfDoc d from rfl]
    have hclassP : classIds P (hashOfDoc d) = [] := by
      rw [List.eq_nil_iff_forall_not_mem]
      intro x hx
      obtain ⟨d1, hd1P, hd1h, _⟩ := (mem_classIds _ _ _).mp hx
      obtain ⟨r1, hr1, hr1h⟩ := hcov d1 hd1P
      have : r1 ∈ s.index.filter (fun r => r.hash == hashOfDoc d) :=
        List.mem_filter.mpr ⟨hr1, beq_iff_eq.mpr (by rw [hr1h, hd1h])⟩
      rw [hcls] at this
      cases this
    refine ⟨?_, ?_, ?_⟩
    · intro h2
      rw [List.filter_append, List.length_append]
      by_cases hh : hashOfDoc d = h2
      · have hnil : s.index.filter (fun r => r.hash == h2) = [] := hh ▸ hcls
        rw [hnil]
        simpa using filter_singleton_len_le_one _ h2
      · have hnil : ([IndexRow.mk (some i) d.fileName (d.text.getD "") d.qrData
            (hashOfDoc d)] : List IndexRow).filter (fun r => r.hash == h2) = [] := by
          simp [List.filter_cons, hh]
        rw [hnil]
        simpa using hu h2
    · intro r hr
      rcases List.mem_append.mp hr with hr0 | hr1
      · have hn : r.hash ≠ hashOfDoc d := by
          intro heq
          have : r ∈ s.index.filter (fun x => x.hash == hashOfDoc d) :=
            List.mem_filter.mpr ⟨hr0, beq_iff_eq.mpr heq⟩
          rw [hcls] at this
          cases this
        rw [classIds_append_single, if_neg (fun hc => hn hc.symm), List.append_nil]
        exact hmin r hr0
      · rw [List.mem_singleton.mp hr1]
        dsimp only
        rw [classIds_append_single, if_pos rfl, hclassP, List.nil_append, hidOf]
        exact ⟨rfl, by simp⟩
    · intro d1 hd1
      rcases List.mem_append.mp hd1 with hd1P | hd1d
      · obtain ⟨r1, hr1, hr1h⟩ := hcov d1 hd1P
        exact ⟨r1, List.mem_append_left _ hr1, hr1h⟩
      · rw [List.mem_singleton.mp hd1d]
        exact ⟨_, List.mem_append_right _ (List.mem_singleton_self _), rfl⟩
  · -- exactly one entry r0 with this hash
    have hr0fil : r0 ∈ s.index.filter (fun r => r.hash == hashOfDoc d) := by
      rw [hcls]
      exact List.mem_singleton_self r0
    obtain ⟨hr0mem, hr0beq⟩ := List.mem_filter.mp hr0fil
    have hr0hash : r0.hash = hashOfDoc d := beq_iff_eq.mp hr0beq
    obtain ⟨hr0min, hr0ne⟩ := hmin r0 hr0mem
    cases ho : r0.originalId with
    | none => exact absurd ho hr0ne
    | some f =>
      have hlook : lookupHash s.index (hashValue (d.text.getD "") d.qrData) =
          some (some f) := by
        show lookupHash s.index (hashOfDoc d) = some (some f)
        rw [lookupHash_of_filter_singleton _ _ _ hcls, ho]
      have hfmin : minNat? (classIds P (hashOfDoc d)) = some f := by
        rw [← hr0hash, ← hr0min, ho]
      have hfmem : f ∈ classIds P (hashOfDoc d) := minNat?_mem _ _ hfmin
      by_cases hlt : i < f
      · -- current id is the new minimum: repoint branch
        rw [dedupAndStore_repoint s i f d.fileName (d.text.getD "") d.qrData hlook hlt]
        dsimp only
        have hg : ∀ r : IndexRow,
            ((fun r => if r.originalId == some f
              then { r with originalId := some i } else r) r).hash = r.hash := by
          intro r
          by_cases hc : (r.originalId == some f) = true
          · simp [hc]
          · simp [hc]
        have hkey : ∀ r1 ∈ s.index, r1.originalId = some f → r1.hash = hashOfDoc d := by
          intro r1 hr1 ho1
          have h1 : minNat? (classIds P r1.hash) = some f := by
            rw [← (hmin r1 hr1).1, ho1]
          obtain ⟨d1, hd1P, hd1h, hd1i⟩ := (mem_classIds _ _ _).mp (minNat?_mem _ _ h1)
          obtain ⟨d2, hd2P, hd2h, hd2i⟩ := (mem_classIds _ _ _).mp hfmem
          have hd12 : d1 = d2 :=
            List.inj_on_of_nodup_map hnodupP hd1P hd2P (by rw [hd1i, hd2i])
          rw [← hd1h, hd12, hd2h]
        have hmineq : minNat? (classIds (P ++ [d]) (hashOfDoc d)) = some i := by
          rw [classIds_append_single, if_pos rfl, hidOf, minNat?_append_single, hfmin]
          simp [Nat.min_eq_right (Nat.le_of_lt hlt)]
        refine ⟨?_, ?_, ?_⟩
        · intro h2
          rw [filter_hash_map_of_preserve _ hg, List.length_map]
          exact hu h2
        · intro r hr
          obtain ⟨r1, hr1, hre⟩ := List.mem_map.mp hr
          by_cases hof : r1.originalId = some f
          · have hh1 : r1.hash = hashOfDoc d := hkey r1 hr1 hof
            have hrval : r = { r1 with originalId := some i } := by
              rw [← hre]
              simp [hof]
            have hrhash : r.hash = hashOfDoc d := by
              rw [hrval]
              exact hh1
            refine ⟨?_, ?_⟩
            · rw [hrhash, hmineq, hrval]
            · rw [hrval]
              simp
          · have hrval : r = r1 := by
              rw [← hre]
              simp [hof]
            subst hrval
            have hh2 : r.hash ≠ hashOfDoc d := by
              intro heq
              have : r ∈ s.index.filter (fun x => x.hash == hashOfDoc d) :=
                List.mem_filter.mpr ⟨hr1, beq_iff_eq.mpr heq⟩
              rw [hcls, List.mem_singleton] at this
              rw [this] at hof
              exact hof ho
            rw [classIds_append_single, if_neg (fun hc => hh2 hc.symm), List.append_nil]
            exact hmin r hr1
        · intro d1 hd1
          rcases List.mem_append.mp hd1 with hd1P | hd1d
          · obtain ⟨r1, hr1, hr1h⟩ := hcov d1 hd1P
            refine ⟨_, List.mem_map_of_mem _ hr1, ?_⟩
            rw [hg r1]
            exact hr1h
          · rw [List.mem_singleton.mp hd1d]
            refine ⟨_, List.mem_map_of_mem _ hr0mem, ?_⟩
            rw [hg r0]
            exact hr0hash
      · -- existing original keeps the lower id: duplicate branch, no index change
        rw [dedupAndStore_duplicate s i f d.fileName (d.text.getD "") d.qrData hlook hlt]
        dsimp only
        have hmineq : minNat? (classIds (P ++ [d]) (hashOfDoc d)) = some f := by
          rw [classIds_append_single, if_pos rfl, hidOf, minNat?_append_single, hfmin]
          simp [Nat.min_eq_left (Nat.le_of_not_lt hlt)]
        refine ⟨hu, ?_, ?_⟩
        · intro r hr
          by_cases hh2 : r.hash = hashOfDoc d
          · have hrr0 : r = r0 := by
              have : r ∈ s.index.filter (fun x => x.hash == hashOfDoc d) :=
                List.mem_filter.mpr ⟨hr, beq_iff_eq.mpr hh2⟩
              rw [hcls, List.mem_singleton] at this
              exact this
            subst hrr0
            rw [ho, hr0hash, hmineq]
            exact ⟨rfl, by simp⟩
          · rw [classIds_append_single, if_neg (fun hc => hh2 hc.symm), List.append_nil]
            exact hmin r hr
        · intro d1 hd1
          rcases List.mem_append.mp hd1 with hd1P | hd1d
          · exact hcov d1 hd1P
          · rw [List.mem_singleton.mp hd1d]
            exact ⟨r0, hr0mem, hr0hash⟩

theorem processAll_inv (docs : List DocInput) :
    ∀ (P : List DocInput) (s : EngineState),
      (∀ d ∈ docs, d.validExt = true ∧ d.docId.isSome ∧ d.extractError = false ∧
        textIsEmpty d.text = false) →
      IndexInv P s.index →
      ((P ++ docs).map idOf).Nodup →
      IndexInv (P ++ docs) (processAll s docs).index := by
  induction docs with
  | nil =>
    intro P s _ hinv _
    simpa using hinv
  | cons d ds ih =>
    intro P s hgood hinv hnodup
    obtain ⟨hv, hsome, he, ht⟩ := hgood d (List.mem_cons_self _ _)
    obtain ⟨i, hi⟩ := Option.isSome_iff_exists.mp hsome
    have happ : P ++ d :: ds = (P ++ [d]) ++ ds := by simp
    have hnodup2 : (((P ++ [d]) ++ ds).map idOf).Nodup := by
      rw [← happ]
      exact hnodup
    have hnodup1 : ((P ++ [d]).map idOf).Nodup := by
      rw [List.map_append] at hnodup2
      exact (List.nodup_append.mp hnodup2).1
    have hstep := IndexInv_step P s d i hv hi he ht hinv hnodup1
    have hall : processAll s (d :: ds) = processAll (processSingleDocument s d).1 ds := rfl
    rw [hall, happ]
    exact ih (P ++ [d]) (processSingleDocument s d).1
      (fun d2 hd2 => hgood d2 (List.mem_cons_of_mem _ hd2)) hstep hnodup2

/-- C2: processing any sequence of documents with pairwise distinct
canonical ids sequentially from an empty Search Index leaves at most one
Index Entry per distinct content hash, and the original_id of the entry
for a hash equals the lowest canonical id among all processed documents
sharing that hash (minNat? of the ids of the documents in that hash
class). -/
theorem dedupUniquenessAndLowestId (docs : List DocInput)
    (dets0 : Nat → DetailsRow) (log0 : List String)
    (hgood : ∀ d ∈ docs, d.validExt = true ∧ d.docId.isSome ∧ d.extractError = false ∧
      textIsEmpty d.text = false)
    (hnodup : (docs.map idOf).Nodup) :
    (∀ h, ((processAll ⟨[], dets0, log0⟩ docs).index.filter
        (fun r => r.hash == h)).length ≤ 1) ∧
    (∀ r ∈ (processAll ⟨[], dets0, log0⟩ docs).index,
      r.originalId = minNat? (classIds docs r.hash)) := by
  have hinv0 : IndexInv [] ([] : List IndexRow) := by
    refine ⟨fun h => by simp, fun r hr => absurd hr (List.not_mem_nil r), fun d hd =>
      absurd hd (List.not_mem_nil d)⟩
  have hres := processAll_inv docs [] ⟨[], dets0, log0⟩ hgood hinv0 (by simpa using hnodup)
  rw [List.nil_append] at hres
  exact ⟨hres.1, fun r hr => (hres.2.1 r hr).1⟩

theorem dedupUniquenessAndLowestIdWitness :
    ((∀ d ∈ ([⟨"x1.txt", true, some 8, false, some "content one", none⟩,
        ⟨"x2.txt", true, some 3, false, some "content  one", none⟩,
        ⟨"y.txt", true, some 5, false, some "other content", none⟩] : List DocInput),
      d.validExt = true ∧ d.docId.isSome ∧ d.extractError = false ∧
        textIsEmpty d.text = false) ∧
     (([⟨"x1.txt", true, some 8, false, some "content one", none⟩,
        ⟨"x2.txt", true, some 3, false, some "content  one", none⟩,
        ⟨"y.txt", true, some 5, false, some "other content", none⟩] : List DocInput).map
          idOf).Nodup) ∧
    (∀ h, ((processAll ⟨[], fun _ => ⟨false, none⟩, []⟩
        [⟨"x1.txt", true, some 8, false, some "content one", none⟩,
         ⟨"x2.txt", true, some 3, false, some "content  one", none⟩,
         ⟨"y.txt", true, some 5, false, some "other content", none⟩]).index.filter
        (fun r => r.hash == h)).length ≤ 1) ∧
    (∀ r ∈ (processAll ⟨[], fun _ => ⟨false, none⟩, []⟩
        [⟨"x1.txt", true, some 8, false, some "content one", none⟩,
         ⟨"x2.txt", true, some 3, false, some "content  one", none⟩,
         ⟨"y.txt", true, some 5, false, some "other content", none⟩]).index,
      r.originalId = minNat? (classIds
        [⟨"x1.txt", true, some 8, false, some "content one", none⟩,
         ⟨"x2.txt", true, some 3, false, some "content  one", none⟩,
         ⟨"y.txt", true, some 5, false, some "other content", none⟩] r.hash)) := by
  have h := dedupUniquenessAndLowestId
    [⟨"x1.txt", true, some 8, false, some "content one", none⟩,
     ⟨"x2.txt", true, some 3, false, some "content  one", none⟩,
     ⟨"y.txt", true, some 5, false, some "other content", none⟩]
    (fun _ => ⟨false, none⟩) [] (by decide) (by decide)
  exact ⟨⟨by decide, by decide⟩, h.1, h.2⟩

/- ===== C3 ===== -/

theorem splitOnPredF_irrel (sep : Char → Bool) :
    ∀ (f1 f2 : Nat) (l : List Char), l.length ≤ f1 → l.length ≤ f2 →
      splitOnPredF sep f1 l = splitOnPredF sep f2 l := by
  intro f1
  induction f1 with
  | zero =>
    intro f2 l h1 _
    have hl : l = [] := List.length_eq_zero.mp (Nat.le_zero.mp h1)
    subst hl
    cases f2 <;> rfl
  | succ f ih =>
    intro f2 l h1 h2
    cases l with
    | nil => cases f2 <;> rfl
    | cons c cs =>
      cases f2 with
      | zero => simp at h2
      | succ f2b =>
        have hunf1 : splitOnPredF sep (f + 1) (c :: cs) =
            if sep c then splitOnPredF sep f cs
            else (c :: cs.takeWhile (fun x => !sep x)) ::
              splitOnPredF sep f (cs.dropWhile (fun x => !sep x)) := rfl
        have hunf2 : splitOnPredF sep (f2b + 1) (c :: cs) =
            if sep c then splitOnPredF sep f2b cs
            else (c :: cs.takeWhile (fun x => !sep x)) ::
              splitOnPredF sep f2b (cs.dropWhile (fun x => !sep x)) := rfl
        rw [hunf1, hunf2]
        have hcs1 : cs.length ≤ f := by simpa using h1
        have hcs2 : cs.length ≤ f2b := by simpa using h2
        by_cases hc : sep c = true
        · rw [if_pos hc, if_pos hc]
          exact ih f2b cs hcs1 hcs2
        · rw [if_neg hc, if_neg hc]
          congr 1
          exact ih f2b (cs.dropWhile (fun x => !sep x))
            (Nat.le_trans (List.dropWhile_sublist _).length_le hcs1)
            (Nat.le_trans (List.dropWhile_sublist _).length_le hcs2)

theorem splitOnPred_cons_sep (sep : Char → Bool) (c : Char) (cs : List Char)
    (h : sep c = true) : splitOnPred sep (c :: cs) = splitOnPred sep cs := by
  show splitOnPredF sep (cs.length + 1) (c :: cs) = splitOnPredF sep cs.length cs
  have hunf : splitOnPredF sep (cs.length + 1) (c :: cs) =
      if sep c then splitOnPredF sep cs.length cs
      else (c :: cs.takeWhile (fun x => !sep x)) ::
        splitOnPredF sep cs.length (cs.dropWhile (fun x => !sep x)) := rfl
  rw [hunf, if_pos h]

theorem splitOnPred_cons_word (sep : Char → Bool) (c : Char) (cs : List Char)
    (h : sep c = false) :
    splitOnPred sep (c :: cs) = (c :: cs.takeWhile (fun x => !sep x)) ::
      splitOnPred sep (cs.dropWhile (fun x => !sep x)) := by
  show splitOnPredF sep (cs.length + 1) (c :: cs) = _
  have hunf : splitOnPredF sep (cs.length + 1) (c :: cs) =
      if sep c then splitOnPredF sep cs.length cs
      else (c :: cs.takeWhile (fun x => !sep x)) ::
        splitOnPredF sep cs.length (cs.dropWhile (fun x => !sep x)) := rfl
  rw [hunf, if_neg (by simp [h])]
  congr 1
  exact splitOnPredF_irrel sep cs.length (cs.dropWhile (fun x => !sep x)).length _
    (List.dropWhile_sublist _).length_le (Nat.le_refl _)

theorem collapseWsF_irrel :
    ∀ (f1 f2 : Nat) (l : List Char), l.length ≤ f1 → l.length ≤ f2 →
      collapseWsF f1 l = collapseWsF f2 l := by
  intro f1
  induction f1 with
  | zero =>
    intro f2 l h1 _
    have hl : l = [] := List.length_eq_zero.mp (Nat.le_zero.mp h1)
    subst hl
    cases f2 <;> rfl
  | succ f ih =>
    intro f2 l h1 h2
    cases l with
    | nil => cases f2 <;> rfl
    | cons c cs =>
      cases f2 with
      | zero => simp at h2
      | succ f2b =>
        have hunf1 : collapseWsF (f + 1) (c :: cs) =
            if isPySpace c then ' ' :: collapseWsF f (cs.dropWhile isPySpace)
            else c :: collapseWsF f cs := rfl
        have hunf2 : collapseWsF (f2b + 1) (c :: cs) =
            if isPySpace c then ' ' :: collapseWsF f2b (cs.dropWhile isPySpace)
            else c :: collapseWsF f2b cs := rfl
        rw [hunf1, hunf2]
        have hcs1 : cs.length ≤ f := by simpa using h1
        have hcs2 : cs.length ≤ f2b := by simpa using h2
        by_cases hc : isPySpace c = true
        · rw [if_pos hc, if_pos hc]
          congr 1
          exact ih f2b (cs.dropWhile isPySpace)
            (Nat.le_trans (List.dropWhile_sublist _).length_le hcs1)
            (Nat.le_trans (List.dropWhile_sublist _).length_le hcs2)
        · rw [if_neg hc, if_neg hc]
          congr 1
          exact ih f2b cs hcs1 hcs2

theorem collapseWs_cons_sp (c : Char) (cs : List Char) (h : isPySpace c = true) :
    collapseWs (c :: cs) = ' ' :: collapseWs (cs.dropWhile isPySpace) := by
  show collapseWsF (cs.length + 1) (c :: cs) = _
  have hunf : collapseWsF (cs.length + 1) (c :: cs) =
      if isPySpace c then ' ' :: collapseWsF cs.length (cs.dropWhile isPySpace)
      else c :: collapseWsF cs.length cs := rfl
  rw [hunf, if_pos h]
  congr 1
  exact collapseWsF_irrel cs.length (cs.dropWhile isPySpace).length _
    (List.dropWhile_sublist _).length_le (Nat.le_refl _)

theorem collapseWs_cons_ns (c : Char) (cs : List Char) (h : isPySpace c = false) :
    collapseWs (c :: cs) = c :: collapseWs cs := by
  show collapseWsF (cs.length + 1) (c :: cs) = _
  have hunf : collapseWsF (cs.length + 1) (c :: cs) =
      if isPySpace c then ' ' :: collapseWsF cs.length (cs.dropWhile isPySpace)
      else c :: collapseWsF cs.length cs := rfl
  rw [hunf, if_neg (by simp [h])]
  rfl

theorem dropWhile_nil_of_all_true (p : Char → Bool) :
    ∀ l : List Char, (∀ x ∈ l, p x = true) → l.dropWhile p = [] := by
  intro l
  induction l with
  | nil => intro _; rfl
  | cons c cs ih =>
    intro hall
    rw [List.dropWhile_cons, if_pos (hall c (List.mem_cons_self _ _))]
    exact ih (fun x hx => hall x (List.mem_cons_of_mem _ hx))

theorem all_true_of_dropWhile_nil (p : Char → Bool) :
    ∀ l : List Char, l.dropWhile p = [] → ∀ x ∈ l, p x = true := by
  intro l
  induction l with
  | nil => intro _ x hx; cases hx
  | cons c cs ih =>
    intro hnil x hx
    by_cases hc : p c = true
    · rw [List.dropWhile_cons, if_pos hc] at hnil
      rcases List.mem_cons.mp hx with rfl | hx2
      · exact hc
      · exact ih hnil x hx2
    · rw [List.dropWhile_cons, if_neg hc] at hnil
      cases hnil

theorem dropWhile_head_false (p : Char → Bool) :
    ∀ (l : List Char) (a : Char) (as : List Char),
      l.dropWhile p = a :: as → p a = false := by
  intro l
  induction l with
  | nil => intro a as h; cases h
  | cons c cs ih =>
    intro a as h
    by_cases hc : p c = true
    · rw [List.dropWhile_cons, if_pos hc] at h
      exact ih a as h
    · rw [List.dropWhile_cons, if_neg hc] at h
      cases h
      exact Bool.eq_false_iff.mpr hc

theorem dropWhile_self_of_all_false (p : Char → Bool) (l : List Char)
    (hall : ∀ x ∈ l, p x = false) : l.dropWhile p = l := by
  cases l with
  | nil => rfl
  | cons c cs =>
    rw [List.dropWhile_cons, if_neg (by simp [hall c (List.mem_cons_self _ _)])]

theorem dropTrailing_append (A B : List Char)
    (hA : ∀ x ∈ A, isPySpace x = false) :
    dropTrailing (A ++ B) = A ++ dropTrailing B := by
  unfold dropTrailing
  rw [List.reverse_append, List.dropWhile_append]
  by_cases hB : (B.reverse.dropWhile isPySpace).isEmpty
  · rw [if_pos hB]
    have hAr : A.reverse.dropWhile isPySpace = A.reverse := by
      apply dropWhile_self_of_all_false
      intro x hx
      exact hA x (List.mem_reverse.mp hx)
    rw [hAr, List.reverse_reverse]
    have hBr : B.reverse.dropWhile isPySpace = [] := by
      rwa [List.isEmpty_iff] at hB
    rw [hBr]
    simp
  · rw [if_neg hB]
    rw [List.reverse_append, List.reverse_reverse]

theorem dropTrailing_cons (a : Char) (X : List Char)
    (hne : dropTrailing X ≠ []) : dropTrailing (a :: X) = a :: dropTrailing X := by
  unfold dropTrailing at hne ⊢
  rw [List.reverse_cons, List.dropWhile_append]
  have hX : ¬ (X.reverse.dropWhile isPySpace).isEmpty := by
    intro hempty
    rw [List.isEmpty_iff] at hempty
    rw [hempty] at hne
    exact hne rfl
  rw [if_neg hX, List.reverse_append]
  simp

theorem collapseWs_word_append (w r : List Char)
    (hw : ∀ x ∈ w, isPySpace x = false) :
    collapseWs (w ++ r) = w ++ collapseWs r := by
  induction w with
  | nil => rfl
  | cons c cs ih =>
    rw [List.cons_append, collapseWs_cons_ns c _ (hw c (List.mem_cons_self _ _)),
      ih (fun x hx => hw x (List.mem_cons_of_mem _ hx))]
    rfl

theorem dropWhile_collapse_dropWhile (m : List Char) :
    (collapseWs (m.dropWhile isPySpace)).dropWhile isPySpace =
    (collapseWs m).dropWhile isPySpace := by
  cases m with
  | nil => rfl
  | cons c cs =>
    by_cases hc : isPySpace c = true
    · rw [List.dropWhile_cons, if_pos hc, collapseWs_cons_sp c cs hc,
        List.dropWhile_cons]
      rw [if_pos (by decide)]
    · have hc2 : isPySpace c = false := Bool.eq_false_iff.mpr hc
      rw [List.dropWhile_cons, if_neg hc]

theorem dropWhile_collapseWs_of_head (m : List Char)
    (hm : ∀ a as, m = a :: as → isPySpace a = false) :
    (collapseWs m).dropWhile isPySpace = collapseWs m := by
  cases m with
  | nil => rfl
  | cons a as =>
    rw [collapseWs_cons_ns a as (hm a as rfl), List.dropWhile_cons,
      if_neg (by simp [hm a as rfl])]

theorem pySplitF_word_ne_nil (sep : Char → Bool) :
    ∀ (fuel : Nat) (l : List Char) (w : List Char),
      w ∈ splitOnPredF sep fuel l → w ≠ [] := by
  intro fuel
  induction fuel with
  | zero =>
    intro l w h
    cases l with
    | nil => cases h
    | cons c cs => cases h
  | succ f ih =>
    intro l w h
    cases l with
    | nil => cases h
    | cons c cs =>
      have hunf : splitOnPredF sep (f + 1) (c :: cs) =
          if sep c then splitOnPredF sep f cs
          else (c :: cs.takeWhile (fun x => !sep x)) ::
            splitOnPredF sep f (cs.dropWhile (fun x => !sep x)) := rfl
      rw [hunf] at h
      by_cases hc : sep c = true
      · rw [if_pos hc] at h
        exact ih cs w h
      · rw [if_neg (by simp [hc])] at h
        rcases List.mem_cons.mp h with rfl | h2
        · simp
        · exact ih _ w h2

theorem splitOnPred_nil_all_sep (sep : Char → Bool) :
    ∀ (fuel : Nat) (l : List Char), l.length ≤ fuel →
      splitOnPredF sep fuel l = [] → l.dropWhile sep = [] := by
  intro fuel
  induction fuel with
  | zero =>
    intro l h1 _
    have hl : l = [] := List.length_eq_zero.mp (Nat.le_zero.mp h1)
    subst hl
    rfl
  | succ f ih =>
    intro l h1 h2
    cases l with
    | nil => rfl
    | cons c cs =>
      have hunf : splitOnPredF sep (f + 1) (c :: cs) =
          if sep c then splitOnPredF sep f cs
          else (c :: cs.takeWhile (fun x => !sep x)) ::
            splitOnPredF sep f (cs.dropWhile (fun x => !sep x)) := rfl
      rw [hunf] at h2
      by_cases hc : sep c = true
      · rw [if_pos hc] at h2
        rw [List.dropWhile_cons, if_pos hc]
        exact ih cs (by simpa using h1) h2
      · rw [if_neg (by simp [hc])] at h2
        cases h2

theorem joinWords_ne_nil (w : List Char) (ws : List (List Char)) (hw : w ≠ []) :
    joinWords (w :: ws) ≠ [] := by
  cases ws with
  | nil => exact hw
  | cons w2 ws2 =>
    show w ++ ' ' :: joinWords (w2 :: ws2) ≠ []
    simp

theorem joinWords_pySplit_eq :
    ∀ (n : Nat) (l : List Char), l.length < n →
      joinWords (pySplit l) = dropTrailing ((collapseWs l).dropWhile isPySpace) := by
  intro n
  induction n with
  | zero =>
    intro l h
    exact absurd h (Nat.not_lt_zero _)
  | succ n ih =>
    intro l hl
    cases l with
    | nil => rfl
    | cons c cs =>
      have hcs : cs.length < n := Nat.lt_of_succ_lt_succ hl
      cases hc : isPySpace c with
      | true =>
        rw [show pySplit (c :: cs) = pySplit cs from splitOnPred_cons_sep isPySpace c cs hc]
        rw [ih cs hcs]
        congr 1
        rw [collapseWs_cons_sp c cs hc, List.dropWhile_cons, if_pos (by decide)]
        exact (dropWhile_collapse_dropWhile cs).symm
      | false =>
        rw [show pySplit (c :: cs) =
          (c :: cs.takeWhile (fun x => !isPySpace x)) ::
            pySplit (cs.dropWhile (fun x => !isPySpace x))
          from splitOnPred_cons_word isPySpace c cs hc]
        have htw : ∀ x ∈ cs.takeWhile (fun x => !isPySpace x), isPySpace x = false := by
          intro x hx
          have := List.mem_takeWhile_imp hx
          simpa using this
        have hcns : ∀ x ∈ c :: cs.takeWhile (fun x => !isPySpace x),
            isPySpace x = false := by
          intro x hx
          rcases List.mem_cons.mp hx with rfl | hx2
          · exact hc
          · exact htw x hx2
        have hcseq : cs.takeWhile (fun x => !isPySpace x) ++
            cs.dropWhile (fun x => !isPySpace x) = cs :=
          List.takeWhile_append_dropWhile _ _
        rw [collapseWs_cons_ns c cs hc]
        rw [List.dropWhile_cons, if_neg (by simp [hc])]
        have hcoll : collapseWs cs = cs.takeWhile (fun x => !isPySpace x) ++
            collapseWs (cs.dropWhile (fun x => !isPySpace x)) := by
          conv_lhs => rw [← hcseq]
          exact collapseWs_word_append _ _ htw
        rw [hcoll]
        have hassoc : (c :: (cs.takeWhile (fun x => !isPySpace x) ++
            collapseWs (cs.dropWhile (fun x => !isPySpace x)))) =
            ((c :: cs.takeWhile (fun x => !isPySpace x)) ++
              collapseWs (cs.dropWhile (fun x => !isPySpace x))) := rfl
        rw [hassoc, dropTrailing_append _ _ hcns]
        cases hdr : pySplit (cs.dropWhile (fun x => !isPySpace x)) with
        | nil =>
          have hallsep : (cs.dropWhile (fun x => !isPySpace x)).dropWhile isPySpace = [] :=
            splitOnPred_nil_all_sep isPySpace _ _ (Nat.le_refl _) hdr
          have hdt : dropTrailing
              (collapseWs (cs.dropWhile (fun x => !isPySpace x))) = [] := by
            cases hdd : cs.dropWhile (fun x => !isPySpace x) with
            | nil => rfl
            | cons d dr2 =>
              have hall := all_true_of_dropWhile_nil isPySpace _ (hdd ▸ hallsep)
              have hd : isPySpace d = true := hall d (List.mem_cons_self _ _)
              rw [collapseWs_cons_sp d dr2 hd]
              have hdr2 : dr2.dropWhile isPySpace = [] :=
                dropWhile_nil_of_all_true isPySpace dr2
                  (fun x hx => hall x (List.mem_cons_of_mem _ hx))
              rw [hdr2]
              rfl
          rw [hdt, List.append_nil]
          rfl
        | cons w ws =>
          cases hdd : cs.dropWhile (fun x => !isPySpace x) with
          | nil =>
            rw [hdd] at hdr
            have hcontr : ([] : List (List Char)) = w :: ws := hdr
            cases hcontr
          | cons d dr2 =>
            rw [hdd] at hdr
            have hd : isPySpace d = true := by
              have hfd := dropWhile_head_false (fun x => !isPySpace x) cs d dr2 hdd
              simpa using hfd
            have hdrlen : (d :: dr2).length < n := by
              have h1 : (cs.dropWhile (fun x => !isPySpace x)).length ≤ cs.length :=
                (List.dropWhile_sublist _).length_le
              rw [hdd] at h1
              omega
            have hih := ih (d :: dr2) hdrlen
            rw [hdr] at hih
            rw [collapseWs_cons_sp d dr2 hd] at hih
            rw [List.dropWhile_cons, if_pos (by decide)] at hih
            have hX : (collapseWs (dr2.dropWhile isPySpace)).dropWhile isPySpace =
                collapseWs (dr2.dropWhile isPySpace) := by
              apply dropWhile_collapseWs_of_head
              intro a as ha
              exact dropWhile_head_false isPySpace dr2 a as ha
            rw [hX] at hih
            have hwne : w ≠ [] := by
              apply pySplitF_word_ne_nil isPySpace (d :: dr2).length (d :: dr2) w
              rw [show splitOnPredF isPySpace (d :: dr2).length (d :: dr2) =
                pySplit (d :: dr2) from rfl, hdr]
              exact List.mem_cons_self _ _
            have hjne : joinWords (w :: ws) ≠ [] := joinWords_ne_nil w ws hwne
            have hdtne : dropTrailing (collapseWs (dr2.dropWhile isPySpace)) ≠ [] := by
              rw [← hih]
              exact hjne
            rw [collapseWs_cons_sp d dr2 hd, dropTrailing_cons ' ' _ hdtne, ← hih]
            rfl

/-- The normalization performed by the code (space-join of str.split) is
exactly the normalization in the words of the spec: collapse every
whitespace run to a single space, then trim. -/
theorem pyNormalize_eq_specNormalize (s : String) : pyNormalize s = specNormalize s := by
  unfold pyNormalize specNormalize
  rw [joinWords_pySplit_eq (s.toList.length + 1) s.toList (Nat.lt_succ_self _)]

/-- C3: the content fingerprint equals SHA-256 (validated against the
FIPS known-answer theorems above) of the UTF-8 encoding of the normalized
text truncated to 5000 characters, a "|" separator, and the embedded code
payload or the empty string, where normalization collapses every
whitespace run to a single space and trims (the spec wording, proved
equal to the str.split-join of the code); the fingerprint is a function
of its inputs, two texts with the same normalized form yield the same
fingerprint, and changing letter case changes the fingerprint (shown at a
concrete pair, since SHA-256 injectivity cannot hold universally). -/
theorem fingerprintSpec (T T2 : String) (C : Option String)
    (hnorm : specNormalize T = specNormalize T2) :
    hashValue T C = sha256Hex (utf8Bytes
      (String.mk ((specNormalize T).toList.take 5000) ++ "|" ++ C.getD "")) ∧
    hashValue T C = hashValue T2 C ∧
    hashValue "a" none ≠ hashValue "A" none := by
  refine ⟨?_, ?_, by decide⟩
  · unfold hashValue fingerprintPreimage
    rw [pyNormalize_eq_specNormalize]
  · unfold hashValue fingerprintPreimage
    rw [pyNormalize_eq_specNormalize, pyNormalize_eq_specNormalize, hnorm]

theorem fingerprintSpecWitness :
    specNormalize "a \t b" = specNormalize " a b " ∧
    hashValue "a \t b" (some "qr") = sha256Hex (utf8Bytes
      (String.mk ((specNormalize "a \t b").toList.take 5000) ++ "|" ++
        (some "qr").getD "")) ∧
    hashValue "a \t b" (some "qr") = hashValue " a b " (some "qr") :=
  ⟨by decide,
    (fingerprintSpec "a \t b" " a b " (some "qr") (by decide)).1,
    (fingerprintSpec "a \t b" " a b " (some "qr") (by decide)).2.1⟩
